import Mathlib

/-!
Verification development for the open-screenstudio timeline engine.

The definitions below are a shallow embedding of the TypeScript source:
* slice time algebra (`src/utils/sliceUtils.ts`)
* layout utilities (`src/utils/layoutUtils.ts`)
* the project store edit operations (`src/stores/projectStore.ts`)
* the recording playback utilities (`src/utils/recordingUtils.ts`)
* audio offset compensation (`src/components/editor/EditorView.tsx`)

JavaScript numbers are modelled as rationals (`ℚ`); all the claimed
properties concern the exact algebra of the computations.  Strings stay
strings; nondeterministic id generation (`Date.now()` + random suffix) is
modelled by threading an explicit id supply `gen : ℕ → String`.
-/

namespace ScreenStudio

/-- A slice of the source recording, `src/types/project` Slice. -/
structure Slice where
  id : String
  sourceStartMs : ℚ
  sourceEndMs : ℚ
  timeScale : ℚ
  volume : ℚ
  hideCursor : Bool
  disableCursorSmoothing : Bool
deriving DecidableEq, Repr

/-- Layout types, `src/types/project` LayoutType. -/
inductive LayoutType where
  | screenOnly
  | cameraOnly
  | screenWithCamera
  | sideBySide
deriving DecidableEq, Repr

/-- A layout interval on the output timeline, `src/types/project` Layout. -/
structure Layout where
  id : String
  startTime : ℚ
  endTime : ℚ
  type : LayoutType
  cameraSize : ℚ
  cameraPositionX : ℚ
  cameraPositionY : ℚ
deriving DecidableEq, Repr

/-- A scene: the fields touched by the verified edit operations.  The
remaining fields of the source `Scene` (name, type, sessionIndex,
zoomRanges) are carried through every operation unchanged by object
spread and are omitted. -/
structure Scene where
  id : String
  screenSlices : List Slice
  cameraSlices : List Slice
  layouts : List Layout
deriving DecidableEq, Repr

/-- A project: identity plus scenes (config and metadata are spread through
the verified operations unchanged and are omitted). -/
structure Project where
  id : String
  scenes : List Scene
deriving DecidableEq, Repr

/-- S1 from the spec: a slice is valid when its start is nonnegative, its
source duration is at least `MIN_SLICE_MS` (100 ms) and its time scale is
positive (cf. `isValidSlice` in sliceUtils). -/
def validS1 (s : Slice) : Prop :=
  0 ≤ s.sourceStartMs ∧ 100 ≤ s.sourceEndMs - s.sourceStartMs ∧ 0 < s.timeScale

instance (s : Slice) : Decidable (validS1 s) := by
  unfold validS1; infer_instance

/-! ## Time algebra (`sliceUtils.ts`) -/

/-- `calculateSliceDuration`: output duration of a single slice. -/
def calculateSliceDuration (slice : Slice) : ℚ :=
  (slice.sourceEndMs - slice.sourceStartMs) / slice.timeScale

/-- `calculateSliceOutputStart`: sum of the output durations of the slices
before `index`. -/
def calculateSliceOutputStart (slices : List Slice) (index : ℕ) : ℚ :=
  ((slices.take index).map calculateSliceDuration).sum

/-- `calculateTotalDuration`: total output duration of a slice list. -/
def calculateTotalDuration (slices : List Slice) : ℚ :=
  (slices.map calculateSliceDuration).sum

/-- The scanning loop of `outputTimeToSource`: walk the slices accumulating
output durations; return the first slice whose accumulated window contains
the output time, or `none` when the time is past all slices. -/
def outputTimeToSourceGo (outputTimeMs : ℚ) :
    List Slice → ℕ → ℚ → Option (ℕ × ℚ)
  | [], _, _ => none
  | slice :: rest, i, accumulatedOutput =>
    let outputDuration := calculateSliceDuration slice
    if outputTimeMs < accumulatedOutput + outputDuration then
      some (i, slice.sourceStartMs + (outputTimeMs - accumulatedOutput) * slice.timeScale)
    else
      outputTimeToSourceGo outputTimeMs rest (i + 1) (accumulatedOutput + outputDuration)

/-- `outputTimeToSource`: convert output time to `(sliceIndex, sourceTimeMs)`.
Past the end it returns the last slice's end; on the empty list `(-1, 0)`. -/
def outputTimeToSource (slices : List Slice) (outputTimeMs : ℚ) : ℤ × ℚ :=
  match outputTimeToSourceGo outputTimeMs slices 0 0 with
  | some (i, src) => ((i : ℤ), src)
  | none =>
    match slices.getLast? with
    | some lastSlice => (((slices.length - 1 : ℕ) : ℤ), lastSlice.sourceEndMs)
    | none => (-1, 0)

/-- `sourceTimeToOutput`: convert a source time within slice `sliceIndex` to
output time (out-of-range index yields 0, as in the source guard). -/
def sourceTimeToOutput (slices : List Slice) (sliceIndex : ℕ) (sourceTimeMs : ℚ) : ℚ :=
  if h : sliceIndex < slices.length then
    let slice := slices.get ⟨sliceIndex, h⟩
    calculateSliceOutputStart slices sliceIndex +
      (sourceTimeMs - slice.sourceStartMs) / slice.timeScale
  else 0

/-! ## Edit model (`projectStore.ts`) -/

/-- JavaScript `Math.round`: round half toward positive infinity, i.e.
`Math.round(x) = ⌊x + 1/2⌋`. -/
def jsRound (q : ℚ) : ℤ := Int.floor (q + 1 / 2)

/-- The per-track helper of `splitAllTracksAt`: find the slice whose output
window strictly contains `splitOutputTimeMs`, compute the rounded source
time at the split and, when it is more than `minSplitDuration` (100 ms)
away from both edges, replace the slice by the two halves (with fresh ids
`id1`, `id2`).  Returns `none` when no slice contains the time or the
validation fails. -/
def splitTrackGo (id1 id2 : String) (splitOutputTimeMs : ℚ) :
    List Slice → ℚ → Option (List Slice)
  | [], _ => none
  | slice :: rest, cumulativeTime =>
    let sliceDuration := (slice.sourceEndMs - slice.sourceStartMs) / slice.timeScale
    let sliceOutputStart := cumulativeTime
    let sliceOutputEnd := cumulativeTime + sliceDuration
    if sliceOutputStart < splitOutputTimeMs ∧ splitOutputTimeMs < sliceOutputEnd then
      let sourceTimeAtSplit : ℚ :=
        (jsRound (slice.sourceStartMs + (splitOutputTimeMs - sliceOutputStart) * slice.timeScale) : ℤ)
      if sourceTimeAtSplit ≤ slice.sourceStartMs + 100 ∨
          slice.sourceEndMs - 100 ≤ sourceTimeAtSplit then
        none
      else
        some ({ slice with id := id1, sourceEndMs := sourceTimeAtSplit } ::
              { slice with id := id2, sourceStartMs := sourceTimeAtSplit } :: rest)
    else
      (splitTrackGo id1 id2 splitOutputTimeMs rest sliceOutputEnd).map
        (fun ls => slice :: ls)

/-- `splitTrack` as used inside `splitAllTracksAt` (cumulative time starts at 0). -/
def splitTrack (id1 id2 : String) (splitOutputTimeMs : ℚ) (slices : List Slice) :
    Option (List Slice) :=
  splitTrackGo id1 id2 splitOutputTimeMs slices 0

/-- `splitAllTracksAt`: split both tracks of the addressed scene at the given
output time.  As in the source, the scene is updated whenever AT LEAST ONE
track split succeeded, each track falling back to its previous slices when
its own split failed (`newScreenSlices || scene.screenSlices`). -/
def splitAllTracksAt (gen : ℕ → String) (sceneIndex : ℕ) (splitOutputTimeMs : ℚ)
    (p : Project) : Project :=
  if h : sceneIndex < p.scenes.length then
    let scene := p.scenes.get ⟨sceneIndex, h⟩
    let newScreenSlices := splitTrack (gen 0) (gen 1) splitOutputTimeMs scene.screenSlices
    let newCameraSlices := splitTrack (gen 2) (gen 3) splitOutputTimeMs scene.cameraSlices
    if newScreenSlices.isNone ∧ newCameraSlices.isNone then p
    else
      { p with
        scenes := p.scenes.set sceneIndex
          { scene with
            screenSlices := newScreenSlices.getD scene.screenSlices
            cameraSlices := newCameraSlices.getD scene.cameraSlices } }
  else p

/-- `removeSlice`: linked deletion.  Locate the slice id in either track,
refuse when not found or when either track would be left empty, otherwise
remove the same positional index from both tracks. -/
def removeSlice (sceneIndex : ℕ) (sliceId : String) (p : Project) : Project :=
  if h : sceneIndex < p.scenes.length then
    let scene := p.scenes.get ⟨sceneIndex, h⟩
    let foundIndex :=
      match scene.screenSlices.findIdx? (fun s => s.id == sliceId) with
      | some i => some i
      | none => scene.cameraSlices.findIdx? (fun s => s.id == sliceId)
    match foundIndex with
    | none => p
    | some sliceIndex =>
      if scene.screenSlices.length ≤ 1 ∨ scene.cameraSlices.length ≤ 1 then p
      else
        { p with
          scenes := p.scenes.set sceneIndex
            { scene with
              screenSlices := scene.screenSlices.eraseIdx sliceIndex
              cameraSlices := scene.cameraSlices.eraseIdx sliceIndex } }
  else p

/-- A `Partial<Slice>` patch. -/
structure SlicePatch where
  id : Option String
  sourceStartMs : Option ℚ
  sourceEndMs : Option ℚ
  timeScale : Option ℚ
  volume : Option ℚ
  hideCursor : Option Bool
  disableCursorSmoothing : Option Bool
deriving DecidableEq, Repr

/-- JavaScript object spread `{ ...slice, ...updates }`. -/
def applyPatch (s : Slice) (u : SlicePatch) : Slice :=
  { id := u.id.getD s.id
    sourceStartMs := u.sourceStartMs.getD s.sourceStartMs
    sourceEndMs := u.sourceEndMs.getD s.sourceEndMs
    timeScale := u.timeScale.getD s.timeScale
    volume := u.volume.getD s.volume
    hideCursor := u.hideCursor.getD s.hideCursor
    disableCursorSmoothing := u.disableCursorSmoothing.getD s.disableCursorSmoothing }

/-- The two tracks of a scene. -/
inductive Track where
  | screen
  | camera
deriving DecidableEq, Repr

/-- Slice list of a track. -/
def trackSlices (scene : Scene) : Track → List Slice
  | .screen => scene.screenSlices
  | .camera => scene.cameraSlices

/-- `updateSlice`: apply a patch to the slice with the given id on one track.
The source performs no S1 validation here: the merged slice is stored
unconditionally whenever the id is found. -/
def updateSlice (sceneIndex : ℕ) (track : Track) (sliceId : String)
    (updates : SlicePatch) (p : Project) : Project :=
  if h : sceneIndex < p.scenes.length then
    let scene := p.scenes.get ⟨sceneIndex, h⟩
    let slices := trackSlices scene track
    match slices.findIdx? (fun s => s.id == sliceId) with
    | none => p
    | some sliceIndex =>
      match slices.get? sliceIndex with
      | none => p
      | some found =>
        let newSlices := slices.set sliceIndex (applyPatch found updates)
        { p with
          scenes := p.scenes.set sceneIndex
            (match track with
             | .screen => { scene with screenSlices := newSlices }
             | .camera => { scene with cameraSlices := newSlices }) }
  else p

/-! ## Layout operations (`projectStore.ts`) -/

/-- A `Partial<Layout>` patch. -/
structure LayoutPatch where
  id : Option String
  startTime : Option ℚ
  endTime : Option ℚ
  type : Option LayoutType
  cameraSize : Option ℚ
  cameraPositionX : Option ℚ
  cameraPositionY : Option ℚ
deriving DecidableEq, Repr

/-- JavaScript object spread `{ ...layout, ...updates }`. -/
def applyLayoutPatch (l : Layout) (u : LayoutPatch) : Layout :=
  { id := u.id.getD l.id
    startTime := u.startTime.getD l.startTime
    endTime := u.endTime.getD l.endTime
    type := u.type.getD l.type
    cameraSize := u.cameraSize.getD l.cameraSize
    cameraPositionX := u.cameraPositionX.getD l.cameraPositionX
    cameraPositionY := u.cameraPositionY.getD l.cameraPositionY }

/-- `addLayout`: append the layout to the scene's layout list, unconditionally. -/
def addLayout (sceneIndex : ℕ) (layout : Layout) (p : Project) : Project :=
  if h : sceneIndex < p.scenes.length then
    let scene := p.scenes.get ⟨sceneIndex, h⟩
    { p with
      scenes := p.scenes.set sceneIndex { scene with layouts := scene.layouts ++ [layout] } }
  else p

/-- `updateLayout`: patch the layout with the given id, unconditionally. -/
def updateLayout (sceneIndex : ℕ) (layoutId : String) (updates : LayoutPatch)
    (p : Project) : Project :=
  if h : sceneIndex < p.scenes.length then
    let scene := p.scenes.get ⟨sceneIndex, h⟩
    match scene.layouts.findIdx? (fun l => l.id == layoutId) with
    | none => p
    | some layoutIndex =>
      match scene.layouts.get? layoutIndex with
      | none => p
      | some found =>
        { p with
          scenes := p.scenes.set sceneIndex
            { scene with layouts := scene.layouts.set layoutIndex (applyLayoutPatch found updates) } }
  else p

/-- `removeLayout`: drop the layout with the given id, with no gap repair. -/
def removeLayout (sceneIndex : ℕ) (layoutId : String) (p : Project) : Project :=
  if h : sceneIndex < p.scenes.length then
    let scene := p.scenes.get ⟨sceneIndex, h⟩
    { p with
      scenes := p.scenes.set sceneIndex
        { scene with layouts := scene.layouts.filter (fun l => ¬ l.id == layoutId) } }
  else p

/-- The body of `splitLayout`: find the first layout with the given id;
refuse when the split time is within `minSplitDuration` (100 ms) of either
edge, otherwise replace it by the two halves. -/
def splitLayoutsGo (id1 id2 : String) (layoutId : String) (splitTimeMs : ℚ) :
    List Layout → Option (List Layout)
  | [] => none
  | l :: rest =>
    if l.id == layoutId then
      if splitTimeMs ≤ l.startTime + 100 ∨ l.endTime - 100 ≤ splitTimeMs then none
      else
        some ({ l with id := id1, endTime := splitTimeMs } ::
              { l with id := id2, startTime := splitTimeMs } :: rest)
    else
      (splitLayoutsGo id1 id2 layoutId splitTimeMs rest).map (fun ls => l :: ls)

/-- `splitLayout`: split the addressed layout at `splitTimeMs`. -/
def splitLayout (id1 id2 : String) (sceneIndex : ℕ) (layoutId : String)
    (splitTimeMs : ℚ) (p : Project) : Project :=
  if h : sceneIndex < p.scenes.length then
    let scene := p.scenes.get ⟨sceneIndex, h⟩
    match splitLayoutsGo id1 id2 layoutId splitTimeMs scene.layouts with
    | none => p
    | some newLayouts =>
      { p with scenes := p.scenes.set sceneIndex { scene with layouts := newLayouts } }
  else p

/-- S2 from the spec, as a check running along the layout list: the layouts
starting from reference time `t` are contiguous (each starts where the
previous ended), each lasts at least `MIN_LAYOUT_MS` (100 ms), and together
they end exactly at `total`. -/
def coversFrom (t total : ℚ) : List Layout → Bool
  | [] => t == total
  | l :: rest => l.startTime == t && decide (100 ≤ l.endTime - l.startTime) &&
      coversFrom l.endTime total rest

/-- S2: the layout list tiles `[0, total]` contiguously with no gaps or
overlaps, every layout at least 100 ms long. -/
def validS2 (layouts : List Layout) (total : ℚ) : Bool :=
  coversFrom 0 total layouts

/-! ## Input-event index (`recordingUtils.ts`) -/

/-- A mouse move sample (`MouseMoveEvent`). -/
structure MouseMoveEvent where
  x : ℚ
  y : ℚ
  cursorId : String
  processTimeMs : ℚ
deriving DecidableEq, Repr

/-- Click phase (`eventType: "down" | "up"`). -/
inductive ClickPhase where
  | down
  | up
deriving DecidableEq, Repr

/-- Mouse button. -/
inductive MouseButton where
  | left
  | right
  | middle
deriving DecidableEq, Repr

/-- A mouse click sample (`MouseClickEvent`). -/
structure MouseClickEvent where
  x : ℚ
  y : ℚ
  button : MouseButton
  eventType : ClickPhase
  processTimeMs : ℚ
deriving DecidableEq, Repr

/-- The `while (left < right)` loop of `binarySearchTime`, on the list of
event times.  `mid = ⌊(left + right + 1) / 2⌋`; move `left` up to `mid` when
`times[mid] ≤ t`, otherwise move `right` down to `mid - 1`. -/
def bsLoop (times : List ℚ) (timeMs : ℚ) (left right : ℕ) : ℕ :=
  if h : left < right then
    let mid := (left + right + 1) / 2
    if times.getD mid 0 ≤ timeMs then bsLoop times timeMs mid right
    else bsLoop times timeMs left (mid - 1)
  else left
termination_by right - left
decreasing_by
  all_goals simp only [mid] at *
  · omega
  · omega

/-- `binarySearchTime`: index of the event at or just before `timeMs`
(`-1` when the time is before all events, last index when at or past the
last event). -/
def binarySearchTime {α : Type} (time : α → ℚ) (events : List α) (timeMs : ℚ) : ℤ :=
  match events with
  | [] => -1
  | e0 :: _ =>
    let times := events.map time
    if timeMs < time e0 then -1
    else if times.getD (events.length - 1) 0 ≤ timeMs then ((events.length - 1 : ℕ) : ℤ)
    else ((bsLoop times timeMs 0 (events.length - 1) : ℕ) : ℤ)

/-- `findCursorAtTime`: the mouse move event at or just before `timeMs`. -/
def findCursorAtTime (moves : List MouseMoveEvent) (timeMs : ℚ) :
    Option MouseMoveEvent :=
  match binarySearchTime MouseMoveEvent.processTimeMs moves timeMs with
  | .ofNat i => moves.get? i
  | .negSucc _ => none

/-- Modelled from the spec for the naive side of P7 (`sample_at` equals a
linear scan): scan the events left to right, remembering the index of the
last event with `processTimeMs ≤ t`. -/
def linearScanGo {α : Type} (time : α → ℚ) (timeMs : ℚ) :
    List α → ℕ → ℤ → ℤ
  | [], _, best => best
  | e :: rest, i, best =>
    linearScanGo time timeMs rest (i + 1) (if time e ≤ timeMs then (i : ℤ) else best)

/-- Modelled from the spec: the naive left-to-right scan for the index of
the last event at or before `timeMs` (`-1` when there is none). -/
def linearScanTime {α : Type} (time : α → ℚ) (events : List α) (timeMs : ℚ) : ℤ :=
  linearScanGo time timeMs events 0 (-1)

/-- The interpolated cursor result. -/
structure CursorPoint where
  x : ℚ
  y : ℚ
  cursorId : String
deriving DecidableEq, Repr

/-- `findCursorAtTimeInterpolated`: locate the bracketing samples and
linearly interpolate `x`,`y`; the cursor id is never interpolated. -/
def findCursorAtTimeInterpolated (moves : List MouseMoveEvent) (timeMs : ℚ) :
    Option CursorPoint :=
  match moves with
  | [] => none
  | m0 :: _ =>
    match binarySearchTime MouseMoveEvent.processTimeMs moves timeMs with
    | .negSucc _ => some ⟨m0.x, m0.y, m0.cursorId⟩
    | .ofNat index =>
      match moves.get? index with
      | none => none
      | some current =>
        if moves.length - 1 ≤ index then some ⟨current.x, current.y, current.cursorId⟩
        else
          match moves.get? (index + 1) with
          | none => none
          | some next =>
            let timeDelta := next.processTimeMs - current.processTimeMs
            if timeDelta ≤ 0 then some ⟨current.x, current.y, current.cursorId⟩
            else
              let t := (timeMs - current.processTimeMs) / timeDelta
              some ⟨current.x + (next.x - current.x) * t,
                    current.y + (next.y - current.y) * t,
                    current.cursorId⟩

/-- The push/break loop of `findClicksInRange`: walk the clicks, stop at the
first one past `endTimeMs`, keep those at or after `startTimeMs`. -/
def collectInRange (startTimeMs endTimeMs : ℚ) : List MouseClickEvent → List MouseClickEvent
  | [] => []
  | c :: rest =>
    if endTimeMs < c.processTimeMs then []
    else if startTimeMs ≤ c.processTimeMs then c :: collectInRange startTimeMs endTimeMs rest
    else collectInRange startTimeMs endTimeMs rest

/-- `findClicksInRange`: all click events in `[startTimeMs, endTimeMs]`,
located by binary search for the start then a forward scan. -/
def findClicksInRange (clicks : List MouseClickEvent) (startTimeMs endTimeMs : ℚ) :
    List MouseClickEvent :=
  match clicks with
  | [] => []
  | _ =>
    let startIndex := binarySearchTime MouseClickEvent.processTimeMs clicks startTimeMs
    let start := (max 0 startIndex).toNat
    collectInRange startTimeMs endTimeMs (clicks.drop start)

/-- `findRecentClicks`: the down-phase clicks in `[currentTimeMs − durationMs,
currentTimeMs]`, each annotated with its age. -/
def findRecentClicks (clicks : List MouseClickEvent) (currentTimeMs durationMs : ℚ) :
    List (MouseClickEvent × ℚ) :=
  ((findClicksInRange clicks (currentTimeMs - durationMs) currentTimeMs).filter
      (fun c => c.eventType == ClickPhase.down)).map
    (fun c => (c, currentTimeMs - c.processTimeMs))

/-! ## Audio offset compensation (`EditorView.tsx`) -/

/-- `handleMicAudioLoaded` / `handleSystemAudioLoaded` core: the stored
offset (in seconds) is `videoDurationMs / 1000 − audioDurationSec`, clamped
to be nonnegative. -/
def computeAudioOffset (videoDurationMs audioDurationSec : ℚ) : ℚ :=
  let videoDuration := videoDurationMs / 1000
  let offset := videoDuration - audioDurationSec
  if 0 < offset then offset else 0

/-- `syncAudio` target time for one audio track (seconds):
`max(0, videoTime − offset)`. -/
def syncAudioTarget (videoTime offset : ℚ) : ℚ :=
  max 0 (videoTime - offset)

/-- `syncAudio` re-seek policy: seek exactly when the current audio time
differs from the target by more than 0.02 s (20 ms). -/
def syncAudioNewTime (videoTime offset audioCurrentTime : ℚ) : ℚ :=
  let targetTime := syncAudioTarget videoTime offset
  if 2 / 100 < |audioCurrentTime - targetTime| then targetTime else audioCurrentTime

/-! ## Concrete fixtures used by counterexamples and witnesses -/

/-- Fallback scene for `List.getD` access to a project's scenes. -/
def emptyScene : Scene := ⟨"", [], [], []⟩

/-- A fixed id supply (ids play no role in the verified properties). -/
def genX : ℕ → String := fun _ => "x"

/-- Screen slice whose source interval is 201 ms long at real time. -/
def screenShort : Slice := ⟨"s1", 0, 201, 1, 1, false, false⟩

/-- Camera slice with a 402 ms source interval at double speed: its output
duration is 201 ms, the same as `screenShort`. -/
def cameraLong : Slice := ⟨"c1", 0, 402, 2, 1, false, false⟩

/-- Scene in which a split at output time 120 validates on the camera track
but not on the screen track. -/
def splitScene : Scene := ⟨"sc", [screenShort], [cameraLong], []⟩

/-- Project wrapping `splitScene`. -/
def splitProj : Project := ⟨"p", [splitScene]⟩

/-- 10 s screen slice. -/
def wholeScreen : Slice := ⟨"s1", 0, 10000, 1, 1, false, false⟩

/-- 10 s camera slice. -/
def wholeCamera : Slice := ⟨"c1", 0, 10000, 1, 1, false, false⟩

/-- Scene on which a split at 4000 validates on both tracks. -/
def bothScene : Scene := ⟨"sb", [wholeScreen], [wholeCamera], []⟩

/-- Project wrapping `bothScene`. -/
def bothProj : Project := ⟨"pb", [bothScene]⟩

/-- Scene with two linked clips on each track. -/
def twoClipScene : Scene :=
  ⟨"s2", [⟨"s1", 0, 4000, 1, 1, false, false⟩, ⟨"s2", 4000, 10000, 1, 1, false, false⟩],
    [⟨"c1", 0, 4000, 1, 1, false, false⟩, ⟨"c2", 4000, 10000, 1, 1, false, false⟩], []⟩

/-- Project wrapping `twoClipScene`. -/
def twoClipProj : Project := ⟨"p2", [twoClipScene]⟩

/-- A patch that shrinks the slice's source interval to 50 ms, violating S1. -/
def badPatch : SlicePatch :=
  ⟨Option.none, Option.none, some 50, Option.none, Option.none, Option.none, Option.none⟩

/-- First of two contiguous layouts covering `[0, 10000]`. -/
def layoutA : Layout := ⟨"la", 0, 4000, .screenOnly, 1 / 5, 9 / 10, 9 / 10⟩

/-- Second of two contiguous layouts covering `[0, 10000]`. -/
def layoutB : Layout := ⟨"lb", 4000, 10000, .sideBySide, 1 / 5, 9 / 10, 9 / 10⟩

/-- Scene whose layouts satisfy S2 for a 10 s timeline. -/
def layoutScene : Scene := ⟨"ls", [], [], [layoutA, layoutB]⟩

/-- Project wrapping `layoutScene`. -/
def layoutProj : Project := ⟨"lp", [layoutScene]⟩

/-- Two slices used by the time-algebra witnesses. -/
def algSlices : List Slice :=
  [⟨"a", 0, 1000, 1, 1, false, false⟩, ⟨"b", 2000, 3000, 2, 1, false, false⟩]

/-- Sorted mouse-move samples used by the event-index witnesses. -/
def movesW : List MouseMoveEvent :=
  [⟨0, 0, "arrow", 10⟩, ⟨100, 50, "arrow", 20⟩, ⟨200, 80, "hand", 30⟩]

/-- Strictly sorted clicks used by the recent-click witness. -/
def clicksW : List MouseClickEvent :=
  [⟨0, 0, .left, .down, 100⟩, ⟨1, 1, .left, .up, 150⟩,
   ⟨2, 2, .left, .down, 200⟩, ⟨3, 3, .left, .down, 400⟩]

/-- A down-click at timestamp 100. -/
def tieDown : MouseClickEvent := ⟨0, 0, .left, .down, 100⟩

/-- An up-click sharing the timestamp 100 (invariant M's non-decreasing
event streams allow equal timestamps). -/
def tieUp : MouseClickEvent := ⟨1, 1, .left, .up, 100⟩

/-- A sorted-ascending click array with a duplicated timestamp. -/
def tieClicks : List MouseClickEvent := [tieDown, tieUp]

/-! ## Theorems -/

/-- C9: the stored per-track audio offset equals
`max(0, video_duration − audio_duration)` (negative differences clamp to
zero); the sync target is `max(0, video time − offset)` and a re-seek
happens exactly when the current audio time is more than 20 ms (0.02 s)
away from it; in particular a 30 000 ms video with 29 700 ms of mic audio
gives offset 0.3 s and mic target 4.7 s at video time 5 s. -/
theorem c9_audio_offset_compensation :
    (∀ vd ad : ℚ, computeAudioOffset vd ad = max 0 (vd / 1000 - ad)) ∧
    (∀ vt off cur : ℚ,
      syncAudioTarget vt off = max 0 (vt - off) ∧
      syncAudioNewTime vt off cur =
        if 2 / 100 < |cur - max 0 (vt - off)| then max 0 (vt - off) else cur) ∧
    computeAudioOffset 30000 (297 / 10) = 3 / 10 ∧
    syncAudioTarget 5 (3 / 10) = 47 / 10 := by
  refine ⟨fun vd ad => ?_, fun vt off cur => ⟨rfl, rfl⟩, by norm_num [computeAudioOffset],
    by norm_num [syncAudioTarget]⟩
  unfold computeAudioOffset
  rcases lt_or_le 0 (vd / 1000 - ad) with h | h
  · simp [h, max_eq_right h.le]
  · simp [not_lt.2 h, max_eq_left h]

/-- C5 counterexample: on a valid one-slice project, the patch
`{sourceEndMs := 50}` makes the slice violate S1 (duration 50 ms), yet
`updateSlice` applies it and changes the project instead of refusing. -/
theorem c5_counterexample :
    ¬ validS1 (applyPatch wholeScreen badPatch) ∧
    updateSlice 0 .screen "s1" badPatch bothProj ≠ bothProj ∧
    ((updateSlice 0 .screen "s1" badPatch bothProj).scenes.getD 0 emptyScene).screenSlices =
      [applyPatch wholeScreen badPatch] := by
  have hcomp : ((updateSlice 0 .screen "s1" badPatch bothProj).scenes.getD 0 emptyScene).screenSlices =
      [applyPatch wholeScreen badPatch] := by
    simp [updateSlice, bothProj, bothScene, trackSlices, List.findIdx?_cons, List.getD,
      wholeScreen]
  refine ⟨?_, ?_, hcomp⟩
  · norm_num [validS1, applyPatch, wholeScreen, badPatch]
  · intro hEq
    rw [hEq] at hcomp
    simp [bothProj, bothScene, applyPatch, wholeScreen, badPatch, List.getD] at hcomp

/-- C5 amended: `updateSlice` performs no S1 validation.  When the slice id
is not found on the chosen track the project is unchanged; when it is
found, the merged slice is stored unconditionally — whether or not the
result satisfies S1. -/
theorem c5_update_slice_unvalidated (p : Project) (i : ℕ) (track : Track)
    (sliceId : String) (u : SlicePatch) (h : i < p.scenes.length) :
    ((trackSlices (p.scenes.get ⟨i, h⟩) track).findIdx? (fun s => s.id == sliceId) = none →
      updateSlice i track sliceId u p = p) ∧
    (∀ (k : ℕ) (found : Slice),
      (trackSlices (p.scenes.get ⟨i, h⟩) track).findIdx? (fun s => s.id == sliceId) = some k →
      (trackSlices (p.scenes.get ⟨i, h⟩) track).get? k = some found →
      trackSlices ((updateSlice i track sliceId u p).scenes.getD i emptyScene) track =
        (trackSlices (p.scenes.get ⟨i, h⟩) track).set k (applyPatch found u)) := by
  constructor
  · intro hnone
    unfold updateSlice
    rw [dif_pos h]
    simp only [hnone]
  · intro k found hfind hget
    unfold updateSlice
    rw [dif_pos h]
    simp only [hfind, hget]
    have hlen : i < (p.scenes.set i
        (match track with
         | Track.screen => { p.scenes.get ⟨i, h⟩ with
             screenSlices := (trackSlices (p.scenes.get ⟨i, h⟩) track).set k (applyPatch found u) }
         | Track.camera => { p.scenes.get ⟨i, h⟩ with
             cameraSlices := (trackSlices (p.scenes.get ⟨i, h⟩) track).set k (applyPatch found u) })).length := by
      simpa using h
    cases track <;>
      simp [List.getD, List.getElem?_set_self, h, trackSlices]

/-- C5 amended witness at a concrete input. -/
theorem c5_update_slice_unvalidated_witness :
    trackSlices ((updateSlice 0 .screen "s1" badPatch bothProj).scenes.getD 0 emptyScene)
        Track.screen =
      (trackSlices (bothProj.scenes.get ⟨0, by decide⟩) Track.screen).set 0
        (applyPatch wholeScreen badPatch) :=
  (c5_update_slice_unvalidated bothProj 0 .screen "s1" badPatch (by decide)).2 0 wholeScreen
    (by decide) (by decide)

/-- Element of a set list at the set position, `getD` form. -/
theorem getD_set_self {α : Type} (l : List α) (i : ℕ) (a d : α) (h : i < l.length) :
    (l.set i a).getD i d = a := by
  simp [List.getD, List.getElem?_set_self, h]

/-- `getD` agrees with `get` inside the bounds. -/
theorem getD_of_lt {α : Type} (l : List α) (i : ℕ) (d : α) (h : i < l.length) :
    l.getD i d = l.get ⟨i, h⟩ := by
  simp [List.getD, List.getElem?_eq_getElem, h]

/-- A successful `splitLayoutsGo` preserves the S2 tiling check. -/
theorem splitLayoutsGo_coversFrom (id1 id2 layoutId : String) (m : ℚ) :
    ∀ (ls : List Layout) (t total : ℚ) (nl : List Layout),
      coversFrom t total ls = true →
      splitLayoutsGo id1 id2 layoutId m ls = some nl →
      coversFrom t total nl = true := by
  intro ls
  induction ls with
  | nil =>
    intro t total nl _ hgo
    simp [splitLayoutsGo] at hgo
  | cons l rest ih =>
    intro t total nl hcov hgo
    simp only [coversFrom, Bool.and_eq_true, beq_iff_eq, decide_eq_true_eq] at hcov
    obtain ⟨⟨hstart, hdur⟩, hrest⟩ := hcov
    simp only [splitLayoutsGo] at hgo
    by_cases hid : (l.id == layoutId) = true
    · rw [if_pos hid] at hgo
      by_cases hcond : m ≤ l.startTime + 100 ∨ l.endTime - 100 ≤ m
      · rw [if_pos hcond] at hgo
        exact absurd hgo (by simp)
      · rw [if_neg hcond] at hgo
        push_neg at hcond
        obtain ⟨h1, h2⟩ := hcond
        obtain rfl : { l with id := id1, endTime := m } ::
            { l with id := id2, startTime := m } :: rest = nl := Option.some.inj hgo
        simp only [coversFrom, Bool.and_eq_true, beq_iff_eq, decide_eq_true_eq]
        refine ⟨⟨hstart, by linarith⟩, ⟨trivial, by linarith⟩, hrest⟩
    · rw [if_neg hid] at hgo
      obtain ⟨nl', hgo', rfl⟩ := Option.map_eq_some'.mp hgo
      simp only [coversFrom, Bool.and_eq_true, beq_iff_eq, decide_eq_true_eq]
      exact ⟨⟨hstart, hdur⟩, ih l.endTime total nl' hrest hgo'⟩

/-- C6 counterexample: the layouts `[0,4000)`, `[4000,10000)` satisfy S2 for
a 10 s timeline, yet `removeLayout` of the first changes the project and
leaves a layout list that no longer covers `[0, 10000]` — no neighbour
extension or refusal happens. -/
theorem c6_counterexample :
    validS2 layoutScene.layouts 10000 = true ∧
    removeLayout 0 "la" layoutProj ≠ layoutProj ∧
    validS2 ((removeLayout 0 "la" layoutProj).scenes.getD 0 emptyScene).layouts 10000 = false := by
  have hcomp : (removeLayout 0 "la" layoutProj).scenes.getD 0 emptyScene =
      { layoutScene with layouts := [layoutB] } := by
    simp [removeLayout, layoutProj, layoutScene, layoutA, layoutB, List.getD]
  refine ⟨by norm_num [validS2, coversFrom, layoutScene, layoutA, layoutB], ?_, ?_⟩
  · intro hEq
    rw [hEq] at hcomp
    simp [layoutProj, layoutScene, layoutA, List.getD] at hcomp
  · rw [hcomp]
    norm_num [validS2, coversFrom, layoutScene, layoutB]

/-- C6 amended: of the four layout edits only `splitLayout` maintains S2: it
refuses when either resulting layout would be 100 ms or shorter and
otherwise replaces the addressed layout by two contiguous halves, so a
layout list that tiled `[0, total]` still does.  (`addLayout`,
`updateLayout` and `removeLayout` perform no gap repair and can break S2,
as the counterexample shows.) -/
theorem c6_split_layout_preserves_s2 (p : Project) (id1 id2 layoutId : String)
    (i : ℕ) (m total : ℚ)
    (hS2 : validS2 ((p.scenes.getD i emptyScene).layouts) total = true) :
    validS2 (((splitLayout id1 id2 i layoutId m p).scenes.getD i emptyScene).layouts)
      total = true := by
  unfold splitLayout
  by_cases h : i < p.scenes.length
  · rw [dif_pos h]
    rw [getD_of_lt p.scenes i emptyScene h] at hS2
    cases hgo : splitLayoutsGo id1 id2 layoutId m (p.scenes.get ⟨i, h⟩).layouts with
    | none =>
      simp only [hgo]
      rw [getD_of_lt p.scenes i emptyScene h]
      exact hS2
    | some nl =>
      simp only [hgo]
      rw [getD_set_self p.scenes i _ emptyScene h]
      exact splitLayoutsGo_coversFrom id1 id2 layoutId m _ 0 total nl hS2 hgo
  · rw [dif_neg h]
    exact hS2

/-- C6 amended witness: splitting the first layout of the S2-valid fixture
at 2000 ms keeps S2. -/
theorem c6_split_layout_preserves_s2_witness :
    validS2 (((splitLayout "n1" "n2" 0 "la" 2000 layoutProj).scenes.getD 0
      emptyScene).layouts) 10000 = true :=
  c6_split_layout_preserves_s2 layoutProj "n1" "n2" "la" 0 2000 10000
    (by norm_num [validS2, coversFrom, layoutProj, layoutScene, layoutA, layoutB, List.getD])

/-- A successful per-track split produces exactly one more slice. -/
theorem splitTrackGo_length (id1 id2 : String) (t : ℚ) :
    ∀ (slices : List Slice) (c : ℚ) (l : List Slice),
      splitTrackGo id1 id2 t slices c = some l → l.length = slices.length + 1 := by
  intro slices
  induction slices with
  | nil => intro c l hgo; simp [splitTrackGo] at hgo
  | cons s rest ih =>
    intro c l hgo
    simp only [splitTrackGo] at hgo
    by_cases hin : c < t ∧ t < c + (s.sourceEndMs - s.sourceStartMs) / s.timeScale
    · rw [if_pos hin] at hgo
      by_cases hbad : ((jsRound (s.sourceStartMs + (t - c) * s.timeScale) : ℚ)) ≤
            s.sourceStartMs + 100 ∨
          s.sourceEndMs - 100 ≤ ((jsRound (s.sourceStartMs + (t - c) * s.timeScale) : ℚ))
      · rw [if_pos hbad] at hgo
        exact absurd hgo (by simp)
      · rw [if_neg hbad] at hgo
        obtain rfl := Option.some.inj hgo
        simp
    · rw [if_neg hin] at hgo
      obtain ⟨l', hgo', rfl⟩ := Option.map_eq_some'.mp hgo
      have := ih _ _ hgo'
      simpa using this

/-- A successful per-track split conserves the track's total output
duration: the two halves share the boundary source time, so their output
durations add up to the original's. -/
theorem splitTrackGo_duration (id1 id2 : String) (t : ℚ) :
    ∀ (slices : List Slice) (c : ℚ) (l : List Slice),
      splitTrackGo id1 id2 t slices c = some l →
      calculateTotalDuration l = calculateTotalDuration slices := by
  intro slices
  induction slices with
  | nil => intro c l hgo; simp [splitTrackGo] at hgo
  | cons s rest ih =>
    intro c l hgo
    simp only [splitTrackGo] at hgo
    by_cases hin : c < t ∧ t < c + (s.sourceEndMs - s.sourceStartMs) / s.timeScale
    · rw [if_pos hin] at hgo
      by_cases hbad : ((jsRound (s.sourceStartMs + (t - c) * s.timeScale) : ℚ)) ≤
            s.sourceStartMs + 100 ∨
          s.sourceEndMs - 100 ≤ ((jsRound (s.sourceStartMs + (t - c) * s.timeScale) : ℚ))
      · rw [if_pos hbad] at hgo
        exact absurd hgo (by simp)
      · rw [if_neg hbad] at hgo
        obtain rfl := Option.some.inj hgo
        simp only [calculateTotalDuration, List.map_cons, List.sum_cons,
          calculateSliceDuration]
        rw [← add_assoc, div_add_div_same]
        ring_nf
    · rw [if_neg hin] at hgo
      obtain ⟨l', hgo', rfl⟩ := Option.map_eq_some'.mp hgo
      have := ih _ _ hgo'
      simp only [calculateTotalDuration, List.map_cons, List.sum_cons] at this ⊢
      rw [this]

/-- C1 counterexample: both tracks have 201 ms of output, all slices satisfy
S1, and the states are linked in length; yet at output time 120 the screen
split is refused (the screen source split time 120 is within 100 ms of the
screen slice's end 201) while the camera split (source time 240 in
`[0, 402]`) succeeds — `splitAllTracksAt` then changes the project, splitting
only the camera track. -/
theorem c1_counterexample :
    splitTrack (genX 0) (genX 1) 120 splitScene.screenSlices = none ∧
    splitAllTracksAt genX 0 120 splitProj ≠ splitProj := by
  have hm1 : jsRound ((0 : ℚ) + (120 - 0) * 1) = 120 := by
    norm_num [jsRound, Int.floor_eq_iff]
  have hm2 : jsRound ((0 : ℚ) + (120 - 0) * 2) = 240 := by
    norm_num [jsRound, Int.floor_eq_iff]
  have hscreen : splitTrack (genX 0) (genX 1) 120 splitScene.screenSlices = none := by
    simp only [splitTrack, splitScene, splitTrackGo, screenShort]
    rw [if_pos (by norm_num), if_pos (by rw [hm1]; norm_num)]
  have hcamera : splitTrack (genX 2) (genX 3) 120 splitScene.cameraSlices =
      some [{ cameraLong with id := genX 2, sourceEndMs := 240 },
            { cameraLong with id := genX 3, sourceStartMs := 240 }] := by
    simp only [splitTrack, splitScene, splitTrackGo, cameraLong]
    rw [if_pos (by norm_num), if_neg (by rw [hm2]; norm_num)]
    rw [hm2]
    norm_num
  refine ⟨hscreen, ?_⟩
  intro hEq
  have hlen := congrArg
    (fun q : Project => ((q.scenes.getD 0 emptyScene).cameraSlices.length)) hEq
  simp only [splitAllTracksAt, splitProj, List.length_cons, List.length_nil,
    Nat.zero_lt_succ, dif_pos, List.get] at hlen
  simp only [hscreen, hcamera] at hlen
  simp [splitProj, splitScene, cameraLong, List.getD] at hlen

/-- Projection of a project literal. -/
theorem scenes_mk (id : String) (scs : List Scene) : (Project.mk id scs).scenes = scs := rfl

/-- C1 amended: `splitAllTracksAt` validates and applies the split
per track, not atomically: the project is left unchanged only when the
split fails on BOTH tracks; a track whose own validation fails keeps its
slices even when the other track is split. -/
theorem c1_split_per_track (gen : ℕ → String) (p : Project) (i : ℕ) (t : ℚ)
    (h : i < p.scenes.length) :
    (splitTrack (gen 0) (gen 1) t (p.scenes.get ⟨i, h⟩).screenSlices = none →
      splitTrack (gen 2) (gen 3) t (p.scenes.get ⟨i, h⟩).cameraSlices = none →
      splitAllTracksAt gen i t p = p) ∧
    (splitTrack (gen 0) (gen 1) t (p.scenes.get ⟨i, h⟩).screenSlices = none →
      ((splitAllTracksAt gen i t p).scenes.getD i emptyScene).screenSlices =
        (p.scenes.get ⟨i, h⟩).screenSlices) ∧
    (splitTrack (gen 2) (gen 3) t (p.scenes.get ⟨i, h⟩).cameraSlices = none →
      ((splitAllTracksAt gen i t p).scenes.getD i emptyScene).cameraSlices =
        (p.scenes.get ⟨i, h⟩).cameraSlices) := by
  refine ⟨?_, ?_, ?_⟩
  · intro hs hc
    unfold splitAllTracksAt
    rw [dif_pos h]
    simp only [List.get_eq_getElem] at hs hc ⊢
    rw [hs, hc]
    simp
  · intro hs
    unfold splitAllTracksAt
    rw [dif_pos h]
    simp only [List.get_eq_getElem] at hs ⊢
    rw [hs]
    cases hc : splitTrack (gen 2) (gen 3) t p.scenes[i].cameraSlices with
    | none =>
      rw [if_pos (by simp : (Option.isNone (none : Option (List Slice)) = true ∧ Option.isNone (none : Option (List Slice)) = true))]
      rw [getD_of_lt p.scenes i emptyScene h, List.get_eq_getElem]
    | some nc =>
      rw [if_neg (by simp)]
      rw [scenes_mk, getD_set_self p.scenes i _ emptyScene h]
      simp
  · intro hc
    unfold splitAllTracksAt
    rw [dif_pos h]
    simp only [List.get_eq_getElem] at hc ⊢
    rw [hc]
    cases hs : splitTrack (gen 0) (gen 1) t p.scenes[i].screenSlices with
    | none =>
      rw [if_pos (by simp : (Option.isNone (none : Option (List Slice)) = true ∧ Option.isNone (none : Option (List Slice)) = true))]
      rw [getD_of_lt p.scenes i emptyScene h, List.get_eq_getElem]
    | some ns =>
      rw [if_neg (by simp)]
      rw [scenes_mk, getD_set_self p.scenes i _ emptyScene h]
      simp

/-- C1 amended witness: at output time 50 both tracks of the fixture refuse
the split, and the project is unchanged. -/
theorem c1_split_per_track_witness :
    splitAllTracksAt genX 0 50 splitProj = splitProj := by
  have hm1 : jsRound ((0 : ℚ) + (50 - 0) * 1) = 50 := by
    norm_num [jsRound, Int.floor_eq_iff]
  have hm2 : jsRound ((0 : ℚ) + (50 - 0) * 2) = 100 := by
    norm_num [jsRound, Int.floor_eq_iff]
  have hs : splitTrack (genX 0) (genX 1) 50 (splitProj.scenes.get
      ⟨0, by simp [splitProj]⟩).screenSlices = none := by
    simp only [splitProj, splitScene, List.get, splitTrack, splitTrackGo, screenShort]
    rw [if_pos (by norm_num), if_pos (by rw [hm1]; norm_num)]
  have hc : splitTrack (genX 2) (genX 3) 50 (splitProj.scenes.get
      ⟨0, by simp [splitProj]⟩).cameraSlices = none := by
    simp only [splitProj, splitScene, List.get, splitTrack, splitTrackGo, cameraLong]
    rw [if_pos (by norm_num), if_pos (by rw [hm2]; norm_num)]
  exact (c1_split_per_track genX splitProj 0 50 (by simp [splitProj])).1 hs hc

/-- C2 counterexample: on a scene whose tracks have equal length (one slice
each, equal output durations), `splitAllTracksAt 120` changes the project
but splits only the camera track: the screen track still has 1 slice while
the camera track has 2, so the tracks do NOT both gain a slice and no
longer have equal length. -/
theorem c2_counterexample :
    splitScene.screenSlices.length = splitScene.cameraSlices.length ∧
    splitAllTracksAt genX 0 120 splitProj ≠ splitProj ∧
    ((splitAllTracksAt genX 0 120 splitProj).scenes.getD 0 emptyScene).screenSlices.length = 1 ∧
    ((splitAllTracksAt genX 0 120 splitProj).scenes.getD 0 emptyScene).cameraSlices.length = 2 := by
  have hm1 : jsRound ((0 : ℚ) + (120 - 0) * 1) = 120 := by
    norm_num [jsRound, Int.floor_eq_iff]
  have hm2 : jsRound ((0 : ℚ) + (120 - 0) * 2) = 240 := by
    norm_num [jsRound, Int.floor_eq_iff]
  have hscreen : splitTrack (genX 0) (genX 1) 120 splitScene.screenSlices = none := by
    simp only [splitTrack, splitScene, splitTrackGo, screenShort]
    rw [if_pos (by norm_num), if_pos (by rw [hm1]; norm_num)]
  have hcamera : splitTrack (genX 2) (genX 3) 120 splitScene.cameraSlices =
      some [{ cameraLong with id := genX 2, sourceEndMs := 240 },
            { cameraLong with id := genX 3, sourceStartMs := 240 }] := by
    simp only [splitTrack, splitScene, splitTrackGo, cameraLong]
    rw [if_pos (by norm_num), if_neg (by rw [hm2]; norm_num)]
    rw [hm2]
    norm_num
  have hres : splitAllTracksAt genX 0 120 splitProj =
      ⟨"p", [{ splitScene with
        cameraSlices := [{ cameraLong with id := genX 2, sourceEndMs := 240 },
                         { cameraLong with id := genX 3, sourceStartMs := 240 }] }]⟩ := by
    unfold splitAllTracksAt
    rw [dif_pos (by simp [splitProj])]
    simp only [splitProj, List.get_eq_getElem]
    simp only [List.getElem_cons_zero]
    rw [hscreen, hcamera, if_neg (by simp)]
    simp [splitScene]
  refine ⟨by simp [splitScene], ?_, ?_, ?_⟩
  · rw [hres]
    intro hEq
    have := congrArg (fun q : Project => (q.scenes.getD 0 emptyScene).cameraSlices.length) hEq
    simp [splitProj, splitScene, List.getD] at this
  · rw [hres]
    simp [splitScene, List.getD]
  · rw [hres]
    simp [splitScene, List.getD]

/-- C2 amended: when `splitAllTracksAt` succeeds on BOTH tracks of a scene
with equally long tracks, both tracks gain exactly one slice, remain
equally long, and keep their total output duration; `removeSlice`, whenever
it changes the project, removes the slice at the same positional index from
both tracks so both lengths drop by one and remain equal.  (A split that
validates on only one track changes that track alone, as the counterexample
shows, so the equal-length conclusion there needs the both-tracks-split
hypothesis.) -/
theorem c2_split_remove_linking (gen : ℕ → String) (p : Project) (i : ℕ)
    (t : ℚ) (sliceId : String) (h : i < p.scenes.length)
    (hL : (p.scenes.get ⟨i, h⟩).screenSlices.length =
      (p.scenes.get ⟨i, h⟩).cameraSlices.length) :
    (∀ ns nc,
      splitTrack (gen 0) (gen 1) t (p.scenes.get ⟨i, h⟩).screenSlices = some ns →
      splitTrack (gen 2) (gen 3) t (p.scenes.get ⟨i, h⟩).cameraSlices = some nc →
      ((splitAllTracksAt gen i t p).scenes.getD i emptyScene).screenSlices = ns ∧
      ((splitAllTracksAt gen i t p).scenes.getD i emptyScene).cameraSlices = nc ∧
      ns.length = (p.scenes.get ⟨i, h⟩).screenSlices.length + 1 ∧
      nc.length = (p.scenes.get ⟨i, h⟩).cameraSlices.length + 1 ∧
      ns.length = nc.length ∧
      calculateTotalDuration ns =
        calculateTotalDuration (p.scenes.get ⟨i, h⟩).screenSlices ∧
      calculateTotalDuration nc =
        calculateTotalDuration (p.scenes.get ⟨i, h⟩).cameraSlices) ∧
    (removeSlice i sliceId p ≠ p →
      ∃ k, k < (p.scenes.get ⟨i, h⟩).screenSlices.length ∧
        ((removeSlice i sliceId p).scenes.getD i emptyScene).screenSlices =
          (p.scenes.get ⟨i, h⟩).screenSlices.eraseIdx k ∧
        ((removeSlice i sliceId p).scenes.getD i emptyScene).cameraSlices =
          (p.scenes.get ⟨i, h⟩).cameraSlices.eraseIdx k ∧
        ((removeSlice i sliceId p).scenes.getD i emptyScene).screenSlices.length + 1 =
          (p.scenes.get ⟨i, h⟩).screenSlices.length ∧
        ((removeSlice i sliceId p).scenes.getD i emptyScene).cameraSlices.length + 1 =
          (p.scenes.get ⟨i, h⟩).cameraSlices.length) := by
  constructor
  · intro ns nc hs hc
    have hres : splitAllTracksAt gen i t p =
        Project.mk p.id (p.scenes.set i
          (Scene.mk (p.scenes.get ⟨i, h⟩).id ns nc (p.scenes.get ⟨i, h⟩).layouts)) := by
      unfold splitAllTracksAt
      rw [dif_pos h]
      simp only [List.get_eq_getElem] at hs hc ⊢
      rw [hs, hc, if_neg (by simp)]
      simp
    rw [hres, scenes_mk, getD_set_self p.scenes i _ emptyScene h]
    refine ⟨rfl, rfl, splitTrackGo_length _ _ _ _ _ _ hs, splitTrackGo_length _ _ _ _ _ _ hc,
      ?_, splitTrackGo_duration _ _ _ _ _ _ hs, splitTrackGo_duration _ _ _ _ _ _ hc⟩
    rw [splitTrackGo_length _ _ _ _ _ _ hs, splitTrackGo_length _ _ _ _ _ _ hc, hL]
  · intro hchange
    unfold removeSlice at hchange ⊢
    rw [dif_pos h] at hchange ⊢
    simp only [List.get_eq_getElem] at hL hchange ⊢
    cases hfs : p.scenes[i].screenSlices.findIdx? (fun s => s.id == sliceId) with
    | some k =>
      have hk : k < p.scenes[i].screenSlices.length := by
        obtain ⟨hlt, -⟩ := List.findIdx?_eq_some_iff_getElem.mp hfs
        exact hlt
      simp only [hfs] at hchange ⊢
      by_cases hsmall : p.scenes[i].screenSlices.length ≤ 1 ∨
          p.scenes[i].cameraSlices.length ≤ 1
      · rw [if_pos hsmall] at hchange
        exact absurd rfl hchange
      · rw [if_neg hsmall]
        push_neg at hsmall
        refine ⟨k, hk, ?_⟩
        rw [scenes_mk, getD_set_self p.scenes i _ emptyScene h]
        refine ⟨rfl, rfl, ?_, ?_⟩
        · rw [List.length_eraseIdx_of_lt hk]
          omega
        · rw [List.length_eraseIdx_of_lt (by omega : k < p.scenes[i].cameraSlices.length)]
          omega
    | none =>
      cases hfc : p.scenes[i].cameraSlices.findIdx? (fun s => s.id == sliceId) with
      | none =>
        simp only [hfs, hfc] at hchange
        exact absurd rfl hchange
      | some k =>
        have hk : k < p.scenes[i].cameraSlices.length := by
          obtain ⟨hlt, -⟩ := List.findIdx?_eq_some_iff_getElem.mp hfc
          exact hlt
        simp only [hfs, hfc] at hchange ⊢
        by_cases hsmall : p.scenes[i].screenSlices.length ≤ 1 ∨
            p.scenes[i].cameraSlices.length ≤ 1
        · rw [if_pos hsmall] at hchange
          exact absurd rfl hchange
        · rw [if_neg hsmall]
          push_neg at hsmall
          refine ⟨k, by omega, ?_⟩
          rw [scenes_mk, getD_set_self p.scenes i _ emptyScene h]
          refine ⟨rfl, rfl, ?_, ?_⟩
          · rw [List.length_eraseIdx_of_lt (by omega : k < p.scenes[i].screenSlices.length)]
            omega
          · rw [List.length_eraseIdx_of_lt hk]
            omega

/-- C2 amended witness: a both-track split at 4000 ms on the one-clip
fixture gives two slices on each track, and the linked removal of "s1" on
the two-clip fixture erases the same positional index from both tracks. -/
theorem c2_split_remove_linking_witness :
    ((splitAllTracksAt genX 0 4000 bothProj).scenes.getD 0 emptyScene).screenSlices.length = 2 ∧
    ((splitAllTracksAt genX 0 4000 bothProj).scenes.getD 0 emptyScene).cameraSlices.length = 2 ∧
    (∃ k, k < twoClipScene.screenSlices.length ∧
      ((removeSlice 0 "s1" twoClipProj).scenes.getD 0 emptyScene).screenSlices =
        twoClipScene.screenSlices.eraseIdx k ∧
      ((removeSlice 0 "s1" twoClipProj).scenes.getD 0 emptyScene).cameraSlices =
        twoClipScene.cameraSlices.eraseIdx k) := by
  have hm : jsRound ((0 : ℚ) + (4000 - 0) * 1) = 4000 := by
    norm_num [jsRound, Int.floor_eq_iff]
  have hs : splitTrack (genX 0) (genX 1) 4000 bothScene.screenSlices =
      some [{ wholeScreen with id := genX 0, sourceEndMs := 4000 },
            { wholeScreen with id := genX 1, sourceStartMs := 4000 }] := by
    simp only [splitTrack, bothScene, splitTrackGo, wholeScreen]
    rw [if_pos (by norm_num), if_neg (by rw [hm]; norm_num)]
    rw [hm]
    norm_num
  have hc : splitTrack (genX 2) (genX 3) 4000 bothScene.cameraSlices =
      some [{ wholeCamera with id := genX 2, sourceEndMs := 4000 },
            { wholeCamera with id := genX 3, sourceStartMs := 4000 }] := by
    simp only [splitTrack, bothScene, splitTrackGo, wholeCamera]
    rw [if_pos (by norm_num), if_neg (by rw [hm]; norm_num)]
    rw [hm]
    norm_num
  have happ := c2_split_remove_linking genX bothProj 0 4000 "zz"
    (by simp [bothProj]) (by simp [bothProj, bothScene])
  have hsplit := happ.1 _ _ hs hc
  have happ2 := c2_split_remove_linking genX twoClipProj 0 4000 "s1"
    (by simp [twoClipProj]) (by simp [twoClipProj, twoClipScene])
  have hne : removeSlice 0 "s1" twoClipProj ≠ twoClipProj := by decide
  obtain ⟨k, hk, h1, h2, -, -⟩ := happ2.2 hne
  refine ⟨?_, ?_, k, hk, h1, h2⟩
  · rw [hsplit.1]
    simp
  · rw [hsplit.2.1]
    simp

/-- Under S1 a slice's output duration is positive. -/
theorem calculateSliceDuration_pos (s : Slice) (hs : validS1 s) :
    0 < calculateSliceDuration s := by
  obtain ⟨h0, h100, hts⟩ := hs
  exact div_pos (by linarith) hts

/-- The accumulated output start of index 0 is 0. -/
theorem accStart_zero (slices : List Slice) : calculateSliceOutputStart slices 0 = 0 := by
  simp [calculateSliceOutputStart]

/-- Cons step of the accumulated output start. -/
theorem accStart_cons_succ (s : Slice) (rest : List Slice) (n : ℕ) :
    calculateSliceOutputStart (s :: rest) (n + 1) =
      calculateSliceDuration s + calculateSliceOutputStart rest n := by
  simp [calculateSliceOutputStart]

/-- Successor step of the accumulated output start. -/
theorem accStart_succ_get (slices : List Slice) (n : ℕ) (h : n < slices.length) :
    calculateSliceOutputStart slices (n + 1) =
      calculateSliceOutputStart slices n + calculateSliceDuration (slices.get ⟨n, h⟩) := by
  unfold calculateSliceOutputStart
  rw [List.map_take, List.map_take,
    List.sum_take_succ (slices.map calculateSliceDuration) n (by simpa using h)]
  simp

/-- Total output duration of a cons. -/
theorem totalDuration_cons (s : Slice) (rest : List Slice) :
    calculateTotalDuration (s :: rest) =
      calculateSliceDuration s + calculateTotalDuration rest := by
  simp [calculateTotalDuration]

/-- Total output duration is nonnegative when every slice's duration is. -/
theorem totalDuration_nonneg (slices : List Slice)
    (hd : ∀ s ∈ slices, 0 ≤ calculateSliceDuration s) :
    0 ≤ calculateTotalDuration slices := by
  apply List.sum_nonneg
  intro x hx
  obtain ⟨s, hs, rfl⟩ := List.mem_map.mp hx
  exact hd s hs

/-- The accumulated output start is nonnegative when durations are. -/
theorem accStart_nonneg (slices : List Slice) (n : ℕ)
    (hd : ∀ s ∈ slices, 0 ≤ calculateSliceDuration s) :
    0 ≤ calculateSliceOutputStart slices n := by
  apply List.sum_nonneg
  intro x hx
  obtain ⟨s, hs, rfl⟩ := List.mem_map.mp hx
  exact hd s (List.mem_of_mem_take hs)

/-- The accumulated output start is monotone in the index. -/
theorem accStart_mono (slices : List Slice)
    (hd : ∀ s ∈ slices, 0 ≤ calculateSliceDuration s) :
    ∀ {a b : ℕ}, a ≤ b → b ≤ slices.length →
      calculateSliceOutputStart slices a ≤ calculateSliceOutputStart slices b := by
  intro a b hab hb
  induction b with
  | zero =>
    have ha : a = 0 := by omega
    subst ha
    exact le_refl _
  | succ n ih =>
    rcases Nat.lt_or_ge a (n + 1) with hlt | hge
    · have hn : n < slices.length := by omega
      have h1 := ih (by omega) (by omega)
      rw [accStart_succ_get slices n hn]
      have h2 : 0 ≤ calculateSliceDuration (slices.get ⟨n, hn⟩) :=
        hd _ (List.get_mem slices n hn)
      linarith
    · have ha : a = n + 1 := by omega
      subst ha
      exact le_refl _

/-- The total output duration is the accumulated start past the last index. -/
theorem totalDuration_eq_accStart_length (slices : List Slice) :
    calculateTotalDuration slices = calculateSliceOutputStart slices slices.length := by
  simp [calculateTotalDuration, calculateSliceOutputStart]

/-- Past all the slices, the scanning loop returns `none`. -/
theorem outputGo_none (t : ℚ) :
    ∀ (slices : List Slice) (i0 : ℕ) (acc0 : ℚ),
      (∀ s ∈ slices, 0 ≤ calculateSliceDuration s) →
      acc0 + calculateTotalDuration slices ≤ t →
      outputTimeToSourceGo t slices i0 acc0 = none := by
  intro slices
  induction slices with
  | nil => intro i0 acc0 _ _; rfl
  | cons s rest ih =>
    intro i0 acc0 hd ht
    rw [totalDuration_cons] at ht
    have hrest : 0 ≤ calculateTotalDuration rest :=
      totalDuration_nonneg rest (fun x hx => hd x (List.mem_cons_of_mem s hx))
    simp only [outputTimeToSourceGo]
    rw [if_neg (by push_neg; linarith)]
    exact ih (i0 + 1) (acc0 + calculateSliceDuration s)
      (fun x hx => hd x (List.mem_cons_of_mem s hx)) (by linarith)

/-- Inside the total window, the scanning loop finds the bracketing slice. -/
theorem outputGo_some (t : ℚ) :
    ∀ (slices : List Slice) (i0 : ℕ) (acc0 : ℚ),
      (∀ s ∈ slices, 0 ≤ calculateSliceDuration s) →
      acc0 ≤ t → t < acc0 + calculateTotalDuration slices →
      ∃ (k : ℕ) (hk : k < slices.length),
        outputTimeToSourceGo t slices i0 acc0 =
          some (i0 + k, (slices.get ⟨k, hk⟩).sourceStartMs +
            (t - (acc0 + calculateSliceOutputStart slices k)) *
              (slices.get ⟨k, hk⟩).timeScale) ∧
        acc0 + calculateSliceOutputStart slices k ≤ t ∧
        t < acc0 + calculateSliceOutputStart slices k +
          calculateSliceDuration (slices.get ⟨k, hk⟩) := by
  intro slices
  induction slices with
  | nil =>
    intro i0 acc0 _ h1 h2
    simp only [calculateTotalDuration, List.map_nil, List.sum_nil, add_zero] at h2
    linarith
  | cons s rest ih =>
    intro i0 acc0 hd h1 h2
    by_cases hin : t < acc0 + calculateSliceDuration s
    · refine ⟨0, by simp, ?_, ?_, ?_⟩
      · simp only [outputTimeToSourceGo]
        rw [if_pos (by simpa [calculateSliceDuration] using hin)]
        simp [accStart_zero]
      · simpa [accStart_zero] using h1
      · simpa [accStart_zero] using hin
    · have h1' : acc0 + calculateSliceDuration s ≤ t := not_lt.mp hin
      have h2' : t < acc0 + calculateSliceDuration s + calculateTotalDuration rest := by
        rw [totalDuration_cons] at h2
        linarith
      obtain ⟨k, hk, hgo, hlo, hhi⟩ := ih (i0 + 1) (acc0 + calculateSliceDuration s)
        (fun x hx => hd x (List.mem_cons_of_mem s hx)) h1' h2'
      refine ⟨k + 1, by simpa using hk, ?_, ?_, ?_⟩
      · simp only [outputTimeToSourceGo]
        rw [if_neg (by simpa [calculateSliceDuration] using hin)]
        show (outputTimeToSourceGo t rest (i0 + 1)
            (acc0 + (s.sourceEndMs - s.sourceStartMs) / s.timeScale)) = _
        rw [show (s.sourceEndMs - s.sourceStartMs) / s.timeScale =
          calculateSliceDuration s from rfl]
        rw [hgo]
        simp only [Option.some.injEq, Prod.mk.injEq, List.get_cons_succ]
        refine ⟨by omega, ?_⟩
        rw [accStart_cons_succ]
        ring
      · rw [accStart_cons_succ]
        rw [← add_assoc]
        exact hlo
      · rw [accStart_cons_succ]
        have : (((s :: rest).get ⟨k + 1, by simpa using hk⟩)) = rest.get ⟨k, hk⟩ := rfl
        rw [this, ← add_assoc]
        exact hhi

/-- With positive durations, the bracketing index is unique. -/
theorem bracket_unique (slices : List Slice) (t : ℚ)
    (hd : ∀ s ∈ slices, 0 < calculateSliceDuration s)
    (j k : ℕ) (hj : j < slices.length) (hk : k < slices.length)
    (hj1 : calculateSliceOutputStart slices j ≤ t)
    (hj2 : t < calculateSliceOutputStart slices j +
      calculateSliceDuration (slices.get ⟨j, hj⟩))
    (hk1 : calculateSliceOutputStart slices k ≤ t)
    (hk2 : t < calculateSliceOutputStart slices k +
      calculateSliceDuration (slices.get ⟨k, hk⟩)) : j = k := by
  have hd' : ∀ s ∈ slices, 0 ≤ calculateSliceDuration s := fun s hs => (hd s hs).le
  have key : ∀ (a b : ℕ) (ha : a < slices.length), b < slices.length → a < b →
      t < calculateSliceOutputStart slices a +
        calculateSliceDuration (slices.get ⟨a, ha⟩) →
      calculateSliceOutputStart slices b ≤ t → False := by
    intro a b ha hb hab hub hlb
    have hstep : calculateSliceOutputStart slices (a + 1) ≤
        calculateSliceOutputStart slices b := accStart_mono slices hd' (by omega) (by omega)
    rw [accStart_succ_get slices a ha] at hstep
    linarith
  rcases lt_trichotomy j k with h | h | h
  · exact absurd (key j k hj hk h hj2 hk1) (by simp)
  · exact h
  · exact absurd (key k j hk hj h hk2 hj1) (by simp)

/-- C3: `outputTimeToSource` implements the spec's mapping: on the empty
list it returns `(-1, 0)`; past the total output duration it returns the
last index and the last slice's source end; for `0 ≤ t <` total it returns
the unique bracketing index `i` (with `acc_i ≤ t < acc_i + d_i`) and source
time `sourceStart_i + (t − acc_i)·timeScale_i`. -/
theorem c3_output_time_to_source (slices : List Slice) (t : ℚ)
    (hS1 : ∀ s ∈ slices, validS1 s) :
    (slices = [] → outputTimeToSource slices t = (-1, 0)) ∧
    (slices ≠ [] → calculateTotalDuration slices ≤ t →
      ∃ lastSlice, slices.getLast? = some lastSlice ∧
        outputTimeToSource slices t =
          (((slices.length - 1 : ℕ) : ℤ), lastSlice.sourceEndMs)) ∧
    (0 ≤ t → t < calculateTotalDuration slices →
      ∃ (k : ℕ) (hk : k < slices.length),
        calculateSliceOutputStart slices k ≤ t ∧
        t < calculateSliceOutputStart slices k +
          calculateSliceDuration (slices.get ⟨k, hk⟩) ∧
        (∀ (j : ℕ) (hj : j < slices.length),
          calculateSliceOutputStart slices j ≤ t →
          t < calculateSliceOutputStart slices j +
            calculateSliceDuration (slices.get ⟨j, hj⟩) → j = k) ∧
        outputTimeToSource slices t = ((k : ℤ),
          (slices.get ⟨k, hk⟩).sourceStartMs +
            (t - calculateSliceOutputStart slices k) *
              (slices.get ⟨k, hk⟩).timeScale)) := by
  have hd : ∀ s ∈ slices, 0 ≤ calculateSliceDuration s :=
    fun s hs => (calculateSliceDuration_pos s (hS1 s hs)).le
  refine ⟨?_, ?_, ?_⟩
  · rintro rfl
    rfl
  · intro hne hge
    have hnone := outputGo_none t slices 0 0 hd (by simpa using hge)
    obtain ⟨ls, hl⟩ : ∃ ls, slices.getLast? = some ls := by
      cases hsl : slices with
      | nil => exact absurd hsl hne
      | cons a rest => exact ⟨(a :: rest).getLast (by simp), List.getLast?_eq_getLast _ _⟩
    refine ⟨ls, hl, ?_⟩
    unfold outputTimeToSource
    rw [hnone, hl]
  · intro h0 hlt
    obtain ⟨k, hk, hgo, hlo, hhi⟩ := outputGo_some t slices 0 0 hd h0 (by simpa using hlt)
    have hpos : ∀ s ∈ slices, 0 < calculateSliceDuration s :=
      fun s hs => calculateSliceDuration_pos s (hS1 s hs)
    refine ⟨k, hk, by simpa using hlo, by simpa using hhi, ?_, ?_⟩
    · intro j hj hjlo hjhi
      exact bracket_unique slices t hpos j k hj hk hjlo hjhi
        (by simpa using hlo) (by simpa using hhi)
    · unfold outputTimeToSource
      rw [hgo]
      simp

/-- C4: the time algebra round-trips: mapping a source time `s` inside
slice `i` to output time and back yields exactly `(i, s)`. -/
theorem c4_round_trip (slices : List Slice) (i : ℕ) (s : ℚ)
    (hS1 : ∀ sl ∈ slices, validS1 sl) (hi : i < slices.length)
    (hlo : (slices.get ⟨i, hi⟩).sourceStartMs ≤ s)
    (hhi : s < (slices.get ⟨i, hi⟩).sourceEndMs) :
    outputTimeToSource slices (sourceTimeToOutput slices i s) = ((i : ℤ), s) := by
  have hd : ∀ sl ∈ slices, 0 ≤ calculateSliceDuration sl :=
    fun sl hs => (calculateSliceDuration_pos sl (hS1 sl hs)).le
  have hpos : ∀ sl ∈ slices, 0 < calculateSliceDuration sl :=
    fun sl hs => calculateSliceDuration_pos sl (hS1 sl hs)
  have hsl : validS1 (slices.get ⟨i, hi⟩) := hS1 _ (List.get_mem slices i hi)
  have hts : 0 < (slices.get ⟨i, hi⟩).timeScale := hsl.2.2
  have ht : sourceTimeToOutput slices i s = calculateSliceOutputStart slices i +
      (s - (slices.get ⟨i, hi⟩).sourceStartMs) / (slices.get ⟨i, hi⟩).timeScale := by
    unfold sourceTimeToOutput
    rw [dif_pos hi]
  have hofs0 : 0 ≤ (s - (slices.get ⟨i, hi⟩).sourceStartMs) /
      (slices.get ⟨i, hi⟩).timeScale := div_nonneg (by linarith) hts.le
  have hofs1 : (s - (slices.get ⟨i, hi⟩).sourceStartMs) / (slices.get ⟨i, hi⟩).timeScale <
      calculateSliceDuration (slices.get ⟨i, hi⟩) := by
    unfold calculateSliceDuration
    exact (div_lt_div_iff_of_pos_right hts).mpr (by linarith)
  have hbr1 : calculateSliceOutputStart slices i ≤ sourceTimeToOutput slices i s := by
    rw [ht]; linarith
  have hbr2 : sourceTimeToOutput slices i s < calculateSliceOutputStart slices i +
      calculateSliceDuration (slices.get ⟨i, hi⟩) := by
    rw [ht]; linarith
  have h0 : 0 ≤ sourceTimeToOutput slices i s := by
    have := accStart_nonneg slices i hd
    rw [ht]; linarith
  have hlt : sourceTimeToOutput slices i s < calculateTotalDuration slices := by
    have hstep : calculateSliceOutputStart slices (i + 1) ≤
        calculateSliceOutputStart slices slices.length :=
      accStart_mono slices hd (by omega) (le_refl _)
    rw [accStart_succ_get slices i hi] at hstep
    rw [totalDuration_eq_accStart_length]
    linarith
  obtain ⟨k, hk, hgo, hlo, hhi'⟩ := outputGo_some (sourceTimeToOutput slices i s)
    slices 0 0 hd h0 (by simpa using hlt)
  have hik : i = k :=
    bracket_unique slices (sourceTimeToOutput slices i s) hpos i k hi hk hbr1 hbr2
      (by simpa using hlo) (by simpa using hhi')
  subst hik
  unfold outputTimeToSource
  rw [hgo]
  simp only [Nat.zero_add, zero_add, Prod.mk.injEq, Int.natCast_inj]
  refine ⟨by trivial, ?_⟩
  rw [ht]
  have harith : calculateSliceOutputStart slices i +
      (s - (slices.get ⟨i, hi⟩).sourceStartMs) / (slices.get ⟨i, hi⟩).timeScale -
      calculateSliceOutputStart slices i =
      (s - (slices.get ⟨i, hi⟩).sourceStartMs) / (slices.get ⟨i, hi⟩).timeScale := by
    ring
  rw [harith, div_mul_cancel₀ _ (ne_of_gt hts)]
  ring

/-- S1 holds for the time-algebra fixture. -/
theorem algSlices_validS1 : ∀ sl ∈ algSlices, validS1 sl := by
  intro sl hsl
  simp only [algSlices, List.mem_cons, List.not_mem_nil, or_false] at hsl
  rcases hsl with rfl | rfl <;> norm_num [validS1]

/-- C3 witness: at `t = 1200` on the fixture (1000 ms at 1x then 1000 ms at
2x) the mapping lands in slice 1 at source time 2400. -/
theorem c3_output_time_to_source_witness :
    ∃ (k : ℕ) (hk : k < algSlices.length),
      calculateSliceOutputStart algSlices k ≤ 1200 ∧
      (1200 : ℚ) < calculateSliceOutputStart algSlices k +
        calculateSliceDuration (algSlices.get ⟨k, hk⟩) ∧
      (∀ (j : ℕ) (hj : j < algSlices.length),
        calculateSliceOutputStart algSlices j ≤ 1200 →
        (1200 : ℚ) < calculateSliceOutputStart algSlices j +
          calculateSliceDuration (algSlices.get ⟨j, hj⟩) → j = k) ∧
      outputTimeToSource algSlices 1200 = ((k : ℤ),
        (algSlices.get ⟨k, hk⟩).sourceStartMs +
          ((1200 : ℚ) - calculateSliceOutputStart algSlices k) *
            (algSlices.get ⟨k, hk⟩).timeScale) :=
  (c3_output_time_to_source algSlices 1200 algSlices_validS1).2.2 (by norm_num)
    (by norm_num [calculateTotalDuration, calculateSliceDuration, algSlices])

/-- C4 witness: source time 2400 in slice 1 of the fixture round-trips. -/
theorem c4_round_trip_witness :
    outputTimeToSource algSlices (sourceTimeToOutput algSlices 1 2400) = ((1 : ℤ), 2400) :=
  c4_round_trip algSlices 1 2400 algSlices_validS1 (by norm_num [algSlices])
    (by norm_num [algSlices]) (by norm_num [algSlices])

/-- Invariant of the binary-search loop: starting from a bracket
`times[left] ≤ t` and `t < times[j]` for all `j > right`, the loop lands on
an index `r ∈ [left, right]` with `times[r] ≤ t` and `t < times[j]` for all
`j > r`. -/
theorem bsLoop_spec (times : List ℚ) (t : ℚ)
    (hmono : ∀ (a b : ℕ), a ≤ b → b < times.length →
      times.getD a 0 ≤ times.getD b 0) :
    ∀ (n left right : ℕ), right - left ≤ n → left ≤ right → right < times.length →
      times.getD left 0 ≤ t →
      (∀ j, right < j → j < times.length → t < times.getD j 0) →
      left ≤ bsLoop times t left right ∧ bsLoop times t left right ≤ right ∧
      times.getD (bsLoop times t left right) 0 ≤ t ∧
      (∀ j, bsLoop times t left right < j → j < times.length →
        t < times.getD j 0) := by
  intro n
  induction n with
  | zero =>
    intro left right hn hlr hrlen hleft hright
    have heq : left = right := by omega
    subst heq
    rw [bsLoop, dif_neg (lt_irrefl left)]
    exact ⟨le_refl _, le_refl _, hleft, hright⟩
  | succ n ih =>
    intro left right hn hlr hrlen hleft hright
    by_cases hlt : left < right
    · rw [bsLoop, dif_pos hlt]
      dsimp only
      have hm1 : left + 1 ≤ (left + right + 1) / 2 := by omega
      have hm2 : (left + right + 1) / 2 ≤ right := by omega
      by_cases hc : times.getD ((left + right + 1) / 2) 0 ≤ t
      · rw [if_pos hc]
        obtain ⟨r1, r2, r3, r4⟩ := ih ((left + right + 1) / 2) right (by omega) (by omega)
          hrlen hc hright
        exact ⟨by omega, r2, r3, r4⟩
      · rw [if_neg hc]
        have hnew : ∀ j, (left + right + 1) / 2 - 1 < j → j < times.length →
            t < times.getD j 0 := by
          intro j hj hjlen
          have hmidj : (left + right + 1) / 2 ≤ j := by omega
          exact lt_of_lt_of_le (not_le.mp hc) (hmono _ j hmidj hjlen)
        obtain ⟨r1, r2, r3, r4⟩ := ih left ((left + right + 1) / 2 - 1) (by omega)
          (by omega) (by omega) hleft hnew
        exact ⟨r1, by omega, r3, r4⟩
    · have heq : left = right := by omega
      subst heq
      rw [bsLoop, dif_neg (lt_irrefl left)]
      exact ⟨le_refl _, le_refl _, hleft, hright⟩

/-- Entries of the mapped time list, `getD` form. -/
theorem times_getD {α : Type} (time : α → ℚ) (events : List α) (i : ℕ)
    (h : i < events.length) :
    (events.map time).getD i 0 = time (events.get ⟨i, h⟩) := by
  simp [List.getD, List.getElem?_eq_getElem, h]

/-- A pairwise-sorted event list yields a monotone `getD` time table. -/
theorem pairwise_time_getD_mono {α : Type} (time : α → ℚ) (events : List α)
    (hsorted : List.Pairwise (fun a b => time a ≤ time b) events) :
    ∀ (a b : ℕ), a ≤ b → b < (events.map time).length →
      (events.map time).getD a 0 ≤ (events.map time).getD b 0 := by
  intro a b hab hb
  rw [List.length_map] at hb
  have ha : a < events.length := by omega
  rw [times_getD time events a ha, times_getD time events b hb]
  rcases Nat.lt_or_ge a b with hlt | hge
  · exact List.pairwise_iff_get.mp hsorted ⟨a, ha⟩ ⟨b, hb⟩ hlt
  · have : a = b := by omega
    subst this
    exact le_refl _

/-- `binarySearchTime` returns `-1` when the time is before the first event. -/
theorem binarySearchTime_neg {α : Type} (time : α → ℚ) (events : List α) (t : ℚ)
    (e0 : α) (h0 : events.head? = some e0) (hlt : t < time e0) :
    binarySearchTime time events t = -1 := by
  cases events with
  | nil => simp at h0
  | cons a rest =>
    have ha : a = e0 := by simpa using h0
    subst ha
    unfold binarySearchTime
    dsimp only
    rw [if_pos hlt]

/-- When the first event is at or before `t`, `binarySearchTime` finds the
greatest index at or before `t` (on a sorted list). -/
theorem binarySearchTime_found {α : Type} (time : α → ℚ) (events : List α) (t : ℚ)
    (hsorted : List.Pairwise (fun a b => time a ≤ time b) events)
    (e0 : α) (h0 : events.head? = some e0) (hge : time e0 ≤ t) :
    ∃ (k : ℕ) (hk : k < events.length),
      binarySearchTime time events t = (k : ℤ) ∧
      time (events.get ⟨k, hk⟩) ≤ t ∧
      ∀ (j : ℕ) (hj : j < events.length), k < j →
        t < time (events.get ⟨j, hj⟩) := by
  cases events with
  | nil => simp at h0
  | cons a rest =>
    have ha : a = e0 := by simpa using h0
    subst ha
    have hlen : 0 < (a :: rest).length := by simp
    by_cases hlast : ((a :: rest).map time).getD ((a :: rest).length - 1) 0 ≤ t
    · refine ⟨(a :: rest).length - 1, by omega, ?_, ?_, ?_⟩
      · unfold binarySearchTime
        dsimp only
        rw [if_neg (not_lt.mpr hge), if_pos hlast]
      · rw [times_getD time (a :: rest) _ (by omega)] at hlast
        exact hlast
      · intro j hj hgt
        simp only [List.length_cons] at hj hgt
        omega
    · have hmono := pairwise_time_getD_mono time (a :: rest) hsorted
      have hbracket := bsLoop_spec ((a :: rest).map time) t hmono
        ((a :: rest).length - 1) 0 ((a :: rest).length - 1) (le_refl _) (by omega)
        (by simp) (by simpa using hge)
        (by
          intro j hj hjlen
          simp only [List.length_map, List.length_cons] at hj hjlen
          omega)
      obtain ⟨r1, r2, r3, r4⟩ := hbracket
      have hrlen : bsLoop ((a :: rest).map time) t 0 ((a :: rest).length - 1) <
          (a :: rest).length := by
        simp only [List.length_cons] at r2 ⊢
        omega
      refine ⟨bsLoop ((a :: rest).map time) t 0 ((a :: rest).length - 1), hrlen,
        ?_, ?_, ?_⟩
      · unfold binarySearchTime
        dsimp only
        rw [if_neg (not_lt.mpr hge), if_neg hlast]
      · rw [times_getD time (a :: rest) _ hrlen] at r3
        exact r3
      · intro j hj hgt
        have := r4 j hgt (by simpa using hj)
        rw [times_getD time (a :: rest) j hj] at this
        exact this

/-- The greatest index at or before `t` is unique (no sortedness needed). -/
theorem greatest_le_unique {α : Type} (time : α → ℚ) (events : List α) (t : ℚ)
    (j k : ℕ) (hj : j < events.length) (hk : k < events.length)
    (hj1 : time (events.get ⟨j, hj⟩) ≤ t)
    (hj2 : ∀ (m : ℕ) (hm : m < events.length), j < m → t < time (events.get ⟨m, hm⟩))
    (hk1 : time (events.get ⟨k, hk⟩) ≤ t)
    (hk2 : ∀ (m : ℕ) (hm : m < events.length), k < m → t < time (events.get ⟨m, hm⟩)) :
    j = k := by
  rcases lt_trichotomy j k with h | h | h
  · have := hj2 k hk h
    linarith
  · exact h
  · have := hk2 j hj h
    linarith

/-- The linear scan returns its accumulator when no event is at or before `t`. -/
theorem linearScanGo_none {α : Type} (time : α → ℚ) (t : ℚ) :
    ∀ (l : List α) (i0 : ℕ) (best : ℤ),
      (∀ e ∈ l, ¬ time e ≤ t) → linearScanGo time t l i0 best = best := by
  intro l
  induction l with
  | nil => intro i0 best _; rfl
  | cons e rest ih =>
    intro i0 best hall
    simp only [linearScanGo]
    rw [if_neg (hall e (by simp))]
    exact ih (i0 + 1) best (fun x hx => hall x (List.mem_cons_of_mem e hx))

/-- The linear scan returns the greatest index at or before `t` when one
exists. -/
theorem linearScanGo_found {α : Type} (time : α → ℚ) (t : ℚ) :
    ∀ (l : List α) (i0 : ℕ) (best : ℤ) (j : ℕ) (hj : j < l.length),
      time (l.get ⟨j, hj⟩) ≤ t →
      (∀ (m : ℕ) (hm : m < l.length), j < m → ¬ time (l.get ⟨m, hm⟩) ≤ t) →
      linearScanGo time t l i0 best = ((i0 + j : ℕ) : ℤ) := by
  intro l
  induction l with
  | nil =>
    intro i0 best j hj
    exact absurd hj (by simp)
  | cons e rest ih =>
    intro i0 best j hj hle hafter
    cases j with
    | zero =>
      simp only [linearScanGo]
      rw [if_pos (by simpa using hle)]
      rw [linearScanGo_none time t rest (i0 + 1) (i0 : ℤ)
        (fun x hx => ?_), Nat.add_zero]
      obtain ⟨m, hm, rfl⟩ := List.get_of_mem hx
      exact hafter (m + 1) (by simp) (by omega)
    | succ j' =>
      simp only [linearScanGo]
      have hj' : j' < rest.length := by simpa using hj
      have := ih (i0 + 1) (if time e ≤ t then (i0 : ℤ) else best) j' hj'
        (by simpa using hle)
        (fun m hm hgt => by
          have := hafter (m + 1) (by simpa using hm) (by omega)
          simpa using this)
      rw [this]
      congr 1
      omega

/-- C7: on a sorted mouse-move array the binary search agrees with the
naive left-to-right scan; `findCursorAtTime` returns `null` exactly when
the array is empty or `t` precedes the first sample; a returned index `k`
is exactly the greatest index with `processTimeMs ≤ t`, and the returned
event is the one at that index. -/
theorem c7_sample_at_eq_linear_scan (moves : List MouseMoveEvent) (t : ℚ)
    (hsorted : List.Pairwise (fun a b => a.processTimeMs ≤ b.processTimeMs) moves) :
    binarySearchTime MouseMoveEvent.processTimeMs moves t =
      linearScanTime MouseMoveEvent.processTimeMs moves t ∧
    (findCursorAtTime moves t = none ↔ moves = [] ∨
      ∃ e0, moves.head? = some e0 ∧ t < e0.processTimeMs) ∧
    (∀ (k : ℕ) (hk : k < moves.length),
      (binarySearchTime MouseMoveEvent.processTimeMs moves t = (k : ℤ) ↔
        ((moves.get ⟨k, hk⟩).processTimeMs ≤ t ∧
         ∀ (j : ℕ) (hj : j < moves.length), k < j →
           t < (moves.get ⟨j, hj⟩).processTimeMs))) ∧
    (∀ (k : ℕ) (hk : k < moves.length),
      binarySearchTime MouseMoveEvent.processTimeMs moves t = (k : ℤ) →
      findCursorAtTime moves t = some (moves.get ⟨k, hk⟩)) := by
  cases moves with
  | nil =>
    refine ⟨rfl, ⟨fun _ => Or.inl rfl, fun _ => rfl⟩, ?_, ?_⟩
    · intro k hk
      exact absurd hk (by simp)
    · intro k hk
      exact absurd hk (by simp)
  | cons a rest =>
    by_cases hlt : t < a.processTimeMs
    · have hbs := binarySearchTime_neg MouseMoveEvent.processTimeMs (a :: rest) t a
        rfl hlt
      have hall : ∀ e ∈ (a :: rest), ¬ e.processTimeMs ≤ t := by
        intro e he
        rcases List.mem_cons.mp he with rfl | hmem
        · exact not_le.mpr hlt
        · exact not_le.mpr
            (lt_of_lt_of_le hlt ((List.pairwise_cons.mp hsorted).1 e hmem))
      have hlin : linearScanTime MouseMoveEvent.processTimeMs (a :: rest) t = -1 :=
        linearScanGo_none _ t (a :: rest) 0 (-1) hall
      refine ⟨by rw [hbs, hlin], ?_, ?_, ?_⟩
      · refine ⟨fun _ => Or.inr ⟨a, rfl, hlt⟩, fun _ => ?_⟩
        unfold findCursorAtTime
        rw [hbs]
        rfl
      · intro k hk
        constructor
        · intro hbsk
          rw [hbs] at hbsk
          exfalso
          omega
        · rintro ⟨hle, -⟩
          exact absurd hle (hall _ (List.get_mem _ k hk))
      · intro k hk hbsk
        rw [hbs] at hbsk
        exfalso
        omega
    · have hge : a.processTimeMs ≤ t := not_lt.mp hlt
      obtain ⟨k0, hk0, hbs, hle0, hafter0⟩ := binarySearchTime_found
        MouseMoveEvent.processTimeMs (a :: rest) t hsorted a rfl hge
      have hlin : linearScanTime MouseMoveEvent.processTimeMs (a :: rest) t =
          ((0 + k0 : ℕ) : ℤ) :=
        linearScanGo_found _ t (a :: rest) 0 (-1) k0 hk0 hle0
          (fun m hm hgt => not_le.mpr (hafter0 m hm hgt))
      have hsome : findCursorAtTime (a :: rest) t =
          some ((a :: rest).get ⟨k0, hk0⟩) := by
        unfold findCursorAtTime
        rw [hbs]
        exact List.get?_eq_get hk0
      refine ⟨?_, ?_, ?_, ?_⟩
      · rw [hbs, hlin, Nat.zero_add]
      · constructor
        · intro hnone
          rw [hsome] at hnone
          exact absurd hnone (by simp)
        · rintro (h | ⟨e0, he0, hlt0⟩)
          · exact absurd h (by simp)
          · have ha : a = e0 := by simpa using he0
            subst ha
            linarith
      · intro k hk
        constructor
        · intro hbsk
          rw [hbs] at hbsk
          have hkk : k0 = k := Int.natCast_inj.mp hbsk
          subst hkk
          exact ⟨hle0, hafter0⟩
        · rintro ⟨hle, hafter⟩
          have hkk : k = k0 := greatest_le_unique MouseMoveEvent.processTimeMs
            (a :: rest) t k k0 hk hk0 hle hafter hle0 hafter0
          subst hkk
          exact hbs
      · intro k hk hbsk
        rw [hbs] at hbsk
        have hkk : k0 = k := Int.natCast_inj.mp hbsk
        subst hkk
        exact hsome

/-- C7 witness: on the three-sample fixture at `t = 25` both searches return
index 1 and `findCursorAtTime` returns the sample at index 1. -/
theorem c7_sample_at_eq_linear_scan_witness :
    binarySearchTime MouseMoveEvent.processTimeMs movesW 25 =
      linearScanTime MouseMoveEvent.processTimeMs movesW 25 ∧
    (binarySearchTime MouseMoveEvent.processTimeMs movesW 25 = ((1 : ℕ) : ℤ) ↔
      ((movesW.get ⟨1, by decide⟩).processTimeMs ≤ 25 ∧
       ∀ (j : ℕ) (hj : j < movesW.length), 1 < j →
         (25 : ℚ) < (movesW.get ⟨j, hj⟩).processTimeMs)) := by
  have h := c7_sample_at_eq_linear_scan movesW 25 (by decide)
  exact ⟨h.1, h.2.2.1 1 (by decide)⟩

/-- On a (non-strictly) sorted list, the push/break loop of
`findClicksInRange` collects exactly the events inside the closed range. -/
theorem collectInRange_eq_filter (t0 t1 : ℚ) :
    ∀ (l : List MouseClickEvent),
      List.Pairwise (fun a b => a.processTimeMs ≤ b.processTimeMs) l →
      collectInRange t0 t1 l =
        l.filter (fun c => decide (t0 ≤ c.processTimeMs) &&
          decide (c.processTimeMs ≤ t1)) := by
  intro l
  induction l with
  | nil => intro _; rfl
  | cons c rest ih =>
    intro hp
    obtain ⟨hhead, htail⟩ := List.pairwise_cons.mp hp
    simp only [collectInRange]
    by_cases h1 : t1 < c.processTimeMs
    · rw [if_pos h1]
      have hnil : rest.filter (fun e => decide (t0 ≤ e.processTimeMs) &&
          decide (e.processTimeMs ≤ t1)) = [] := by
        rw [List.filter_eq_nil_iff]
        intro e he
        have : t1 < e.processTimeMs := lt_of_lt_of_le h1 (hhead e he)
        simp [not_le.mpr this]
      rw [List.filter_cons, if_neg (by simp [not_le.mpr h1]), hnil]
    · rw [if_neg h1]
      have hc1 : c.processTimeMs ≤ t1 := not_lt.mp h1
      by_cases h0 : t0 ≤ c.processTimeMs
      · rw [if_pos h0, List.filter_cons, if_pos (by simp [h0, hc1]), ih htail]
      · rw [if_neg h0, List.filter_cons, if_neg (by simp [h0]), ih htail]

/-- On a strictly sorted click list, `findClicksInRange` returns exactly the
clicks inside the closed range `[t0, t1]`, in list (time) order. -/
theorem findClicksInRange_eq_filter (clicks : List MouseClickEvent) (t0 t1 : ℚ)
    (hsorted : List.Pairwise (fun a b => a.processTimeMs < b.processTimeMs) clicks) :
    findClicksInRange clicks t0 t1 =
      clicks.filter (fun c => decide (t0 ≤ c.processTimeMs) &&
        decide (c.processTimeMs ≤ t1)) := by
  cases clicks with
  | nil => rfl
  | cons c0 rest =>
    have hsle : List.Pairwise (fun a b : MouseClickEvent =>
        a.processTimeMs ≤ b.processTimeMs) (c0 :: rest) :=
      hsorted.imp le_of_lt
    by_cases hlt0 : t0 < c0.processTimeMs
    · have hbs := binarySearchTime_neg MouseClickEvent.processTimeMs (c0 :: rest) t0 c0
        rfl hlt0
      unfold findClicksInRange
      dsimp only
      rw [hbs]
      rw [show (max 0 (-1 : ℤ)).toNat = 0 from rfl, List.drop_zero]
      exact collectInRange_eq_filter t0 t1 (c0 :: rest) hsle
    · have hge : c0.processTimeMs ≤ t0 := not_lt.mp hlt0
      obtain ⟨k, hk, hbs, hle0, hafter0⟩ := binarySearchTime_found
        MouseClickEvent.processTimeMs (c0 :: rest) t0 hsle c0 rfl hge
      unfold findClicksInRange
      dsimp only
      rw [hbs]
      rw [show (max 0 ((k : ℤ))).toNat = k by simp]
      have hdrop : collectInRange t0 t1 ((c0 :: rest).drop k) =
          ((c0 :: rest).drop k).filter (fun c => decide (t0 ≤ c.processTimeMs) &&
            decide (c.processTimeMs ≤ t1)) :=
        collectInRange_eq_filter t0 t1 ((c0 :: rest).drop k)
          (hsle.sublist (List.drop_sublist k (c0 :: rest)))
      have htake : ((c0 :: rest).take k).filter (fun c => decide (t0 ≤ c.processTimeMs) &&
          decide (c.processTimeMs ≤ t1)) = [] := by
        rw [List.filter_eq_nil_iff]
        intro e he
        obtain ⟨j, hj, hej⟩ := List.mem_iff_getElem.mp he
        have hjk : j < k := by
          have := hj
          simp only [List.length_take] at this
          omega
        have hjlen : j < (c0 :: rest).length := by omega
        have hlt : e.processTimeMs < ((c0 :: rest).get ⟨k, hk⟩).processTimeMs := by
          have hget : e = (c0 :: rest).get ⟨j, hjlen⟩ := by
            rw [← hej]
            simp [List.getElem_take]
          rw [hget]
          exact List.pairwise_iff_get.mp hsorted ⟨j, hjlen⟩ ⟨k, hk⟩ hjk
        have hnotle : ¬ t0 ≤ e.processTimeMs := not_le.mpr (lt_of_lt_of_le hlt hle0)
        simp [hnotle]
      calc collectInRange t0 t1 ((c0 :: rest).drop k)
          = ((c0 :: rest).drop k).filter (fun c => decide (t0 ≤ c.processTimeMs) &&
              decide (c.processTimeMs ≤ t1)) := hdrop
        _ = ((c0 :: rest).take k).filter (fun c => decide (t0 ≤ c.processTimeMs) &&
              decide (c.processTimeMs ≤ t1)) ++ ((c0 :: rest).drop k).filter
              (fun c => decide (t0 ≤ c.processTimeMs) &&
                decide (c.processTimeMs ≤ t1)) := by rw [htake]; simp
        _ = (c0 :: rest).filter (fun c => decide (t0 ≤ c.processTimeMs) &&
              decide (c.processTimeMs ≤ t1)) := by
            rw [← List.filter_append, List.take_append_drop]

/-- C8 counterexample: on the sorted-ascending array `[down@100, up@100]`
(a duplicated timestamp, which "sorted ascending" and invariant M allow),
with `t = 600` and `w = 500` the down-click at 100 is a down-phase event
inside the closed window `[t − w, t] = [100, 600]`, yet `findRecentClicks`
returns the empty list: the binary search for the window start lands on the
LAST duplicate of timestamp 100, so the forward scan of `findClicksInRange`
starts past the down-click and drops it. -/
theorem c8_counterexample :
    List.Pairwise (fun a b : MouseClickEvent =>
      a.processTimeMs ≤ b.processTimeMs) tieClicks ∧
    (600 : ℚ) - 500 ≤ tieDown.processTimeMs ∧
    tieDown.processTimeMs ≤ 600 ∧
    tieDown.eventType = ClickPhase.down ∧
    tieDown ∈ tieClicks ∧
    findRecentClicks tieClicks 600 500 = [] := by
  refine ⟨by decide, by norm_num [tieDown], by norm_num [tieDown], rfl, by decide, ?_⟩
  unfold findRecentClicks
  rw [show (600 : ℚ) - 500 = 100 from by norm_num]
  decide

/-- C8 amended: on a STRICTLY sorted click stream (no equal timestamps),
`findRecentClicks` returns exactly the down-phase clicks with
`processTimeMs ∈ [t − w, t]`, in ascending time order, each annotated with
`age = t − processTimeMs`.  (With duplicate timestamps at the window's left
edge the binary search can start past earlier duplicates and drop them, as
the counterexample shows.) -/
theorem c8_recent_clicks (clicks : List MouseClickEvent) (t w : ℚ)
    (hsorted : List.Pairwise (fun a b => a.processTimeMs < b.processTimeMs) clicks) :
    findRecentClicks clicks t w =
      (clicks.filter (fun c => c.eventType == ClickPhase.down &&
          (decide (t - w ≤ c.processTimeMs) && decide (c.processTimeMs ≤ t)))).map
        (fun c => (c, t - c.processTimeMs)) := by
  unfold findRecentClicks
  rw [findClicksInRange_eq_filter clicks (t - w) t hsorted, List.filter_filter]

/-- C8 witness: at `t = 300`, `w = 250` on the strictly sorted fixture the
result is exactly the two down-clicks at 100 and 200 with ages 200 and 100. -/
theorem c8_recent_clicks_witness :
    findRecentClicks clicksW 300 250 =
      (clicksW.filter (fun c => c.eventType == ClickPhase.down &&
          (decide ((300 : ℚ) - 250 ≤ c.processTimeMs) &&
           decide (c.processTimeMs ≤ 300)))).map
        (fun c => (c, (300 : ℚ) - c.processTimeMs)) :=
  c8_recent_clicks clicksW 300 250 (by decide)

/-- Closed form of `findCursorAtTimeInterpolated` when the binary search
reports "before all events". -/
theorem interp_before (m0 : MouseMoveEvent) (rest : List MouseMoveEvent) (t : ℚ)
    (hbs : binarySearchTime MouseMoveEvent.processTimeMs (m0 :: rest) t = -1) :
    findCursorAtTimeInterpolated (m0 :: rest) t = some ⟨m0.x, m0.y, m0.cursorId⟩ := by
  unfold findCursorAtTimeInterpolated
  dsimp only
  rw [hbs]
  rfl

/-- Closed form of `findCursorAtTimeInterpolated` when the found index is
the last one. -/
theorem interp_of_bs_last (m0 : MouseMoveEvent) (rest : List MouseMoveEvent)
    (t : ℚ) (k : ℕ) (hk : k < (m0 :: rest).length)
    (hbs : binarySearchTime MouseMoveEvent.processTimeMs (m0 :: rest) t = (k : ℤ))
    (hlast : (m0 :: rest).length - 1 ≤ k) :
    findCursorAtTimeInterpolated (m0 :: rest) t =
      some ⟨((m0 :: rest).get ⟨k, hk⟩).x, ((m0 :: rest).get ⟨k, hk⟩).y,
            ((m0 :: rest).get ⟨k, hk⟩).cursorId⟩ := by
  unfold findCursorAtTimeInterpolated
  dsimp only
  rw [hbs, show ((k : ℕ) : ℤ) = Int.ofNat k from rfl]
  dsimp only
  rw [List.get?_eq_get hk]
  dsimp only
  rw [if_pos hlast]

/-- Closed form of `findCursorAtTimeInterpolated` when the found index has a
successor: return the earlier sample verbatim on a non-positive time delta,
otherwise interpolate `x`,`y` keeping the earlier sample's cursor id. -/
theorem interp_of_bs_mid (m0 : MouseMoveEvent) (rest : List MouseMoveEvent)
    (t : ℚ) (k : ℕ) (hk1 : k + 1 < (m0 :: rest).length)
    (hbs : binarySearchTime MouseMoveEvent.processTimeMs (m0 :: rest) t = (k : ℤ)) :
    findCursorAtTimeInterpolated (m0 :: rest) t =
      if ((m0 :: rest).get ⟨k + 1, hk1⟩).processTimeMs -
          ((m0 :: rest).get ⟨k, by omega⟩).processTimeMs ≤ 0 then
        some ⟨((m0 :: rest).get ⟨k, by omega⟩).x, ((m0 :: rest).get ⟨k, by omega⟩).y,
              ((m0 :: rest).get ⟨k, by omega⟩).cursorId⟩
      else
        some ⟨((m0 :: rest).get ⟨k, by omega⟩).x +
                (((m0 :: rest).get ⟨k + 1, hk1⟩).x - ((m0 :: rest).get ⟨k, by omega⟩).x) *
                  ((t - ((m0 :: rest).get ⟨k, by omega⟩).processTimeMs) /
                    (((m0 :: rest).get ⟨k + 1, hk1⟩).processTimeMs -
                      ((m0 :: rest).get ⟨k, by omega⟩).processTimeMs)),
              ((m0 :: rest).get ⟨k, by omega⟩).y +
                (((m0 :: rest).get ⟨k + 1, hk1⟩).y - ((m0 :: rest).get ⟨k, by omega⟩).y) *
                  ((t - ((m0 :: rest).get ⟨k, by omega⟩).processTimeMs) /
                    (((m0 :: rest).get ⟨k + 1, hk1⟩).processTimeMs -
                      ((m0 :: rest).get ⟨k, by omega⟩).processTimeMs)),
              ((m0 :: rest).get ⟨k, by omega⟩).cursorId⟩ := by
  unfold findCursorAtTimeInterpolated
  dsimp only
  conv_lhs => rw [hbs, show ((k : ℕ) : ℤ) = Int.ofNat k from rfl]
  dsimp only
  conv_lhs => rw [List.get?_eq_get (by omega : k < (m0 :: rest).length)]
  dsimp only
  conv_lhs => rw [if_neg (by simp only [List.length_cons] at hk1 ⊢; omega :
    ¬ (m0 :: rest).length - 1 ≤ k)]
  conv_lhs => rw [List.get?_eq_get hk1]

/-- C10: `findCursorAtTimeInterpolated` is total on every non-empty sorted
array (it always returns a sample, never dividing by a zero time delta):
before the first sample it returns that sample verbatim; on a non-positive
bracketing time delta it returns the earlier sample verbatim; and the
returned cursor id always comes from the sample at or before `t` (or the
first sample when `t` precedes all samples), never from the following one. -/
theorem c10_interpolation_safety (moves : List MouseMoveEvent) (t : ℚ)
    (hne : moves ≠ [])
    (hsorted : List.Pairwise (fun a b => a.processTimeMs ≤ b.processTimeMs) moves) :
    (∃ r, findCursorAtTimeInterpolated moves t = some r) ∧
    (∀ e0, moves.head? = some e0 → t < e0.processTimeMs →
      findCursorAtTimeInterpolated moves t = some ⟨e0.x, e0.y, e0.cursorId⟩) ∧
    (∀ (k : ℕ) (hk : k < moves.length) (hk1 : k + 1 < moves.length),
      binarySearchTime MouseMoveEvent.processTimeMs moves t = (k : ℤ) →
      (moves.get ⟨k + 1, hk1⟩).processTimeMs ≤ (moves.get ⟨k, hk⟩).processTimeMs →
      findCursorAtTimeInterpolated moves t =
        some ⟨(moves.get ⟨k, hk⟩).x, (moves.get ⟨k, hk⟩).y,
              (moves.get ⟨k, hk⟩).cursorId⟩) ∧
    (∀ r, findCursorAtTimeInterpolated moves t = some r →
      (∃ e0, moves.head? = some e0 ∧ t < e0.processTimeMs ∧ r.cursorId = e0.cursorId) ∨
      (∃ (k : ℕ) (hk : k < moves.length),
        binarySearchTime MouseMoveEvent.processTimeMs moves t = (k : ℤ) ∧
        (moves.get ⟨k, hk⟩).processTimeMs ≤ t ∧
        r.cursorId = (moves.get ⟨k, hk⟩).cursorId)) := by
  cases moves with
  | nil => exact absurd rfl hne
  | cons m0 rest =>
    by_cases hlt : t < m0.processTimeMs
    · have hbs := binarySearchTime_neg MouseMoveEvent.processTimeMs (m0 :: rest) t m0
        rfl hlt
      have hres := interp_before m0 rest t hbs
      refine ⟨⟨_, hres⟩, ?_, ?_, ?_⟩
      · intro e0 he0 _
        have ha : m0 = e0 := by simpa using he0
        subst ha
        exact hres
      · intro k hk hk1 hbsk _
        rw [hbs] at hbsk
        exfalso
        omega
      · intro r hr
        rw [hres] at hr
        obtain rfl := (Option.some.inj hr).symm
        exact Or.inl ⟨m0, rfl, hlt, rfl⟩
    · have hge : m0.processTimeMs ≤ t := not_lt.mp hlt
      obtain ⟨k0, hk0, hbs, hle0, hafter0⟩ := binarySearchTime_found
        MouseMoveEvent.processTimeMs (m0 :: rest) t hsorted m0 rfl hge
      by_cases hlast : (m0 :: rest).length - 1 ≤ k0
      · have hres := interp_of_bs_last m0 rest t k0 hk0 hbs hlast
        refine ⟨⟨_, hres⟩, ?_, ?_, ?_⟩
        · intro e0 he0 hlt0
          have ha : m0 = e0 := by simpa using he0
          subst ha
          linarith
        · intro k hk hk1 hbsk _
          rw [hbs] at hbsk
          have hkk : k0 = k := Int.natCast_inj.mp hbsk
          subst hkk
          simp only [List.length_cons] at hk1 hlast
          exfalso
          omega
        · intro r hr
          rw [hres] at hr
          obtain rfl := (Option.some.inj hr).symm
          exact Or.inr ⟨k0, hk0, hbs, hle0, rfl⟩
      · have hk1 : k0 + 1 < (m0 :: rest).length := by
          simp only [List.length_cons] at hk0 hlast ⊢
          omega
        have hres := interp_of_bs_mid m0 rest t k0 hk1 hbs
        by_cases hdelta : ((m0 :: rest).get ⟨k0 + 1, hk1⟩).processTimeMs -
            ((m0 :: rest).get ⟨k0, hk0⟩).processTimeMs ≤ 0
        · rw [if_pos hdelta] at hres
          refine ⟨⟨_, hres⟩, ?_, ?_, ?_⟩
          · intro e0 he0 hlt0
            have ha : m0 = e0 := by simpa using he0
            subst ha
            linarith
          · intro k hk hk1' hbsk _
            rw [hbs] at hbsk
            have hkk : k0 = k := Int.natCast_inj.mp hbsk
            subst hkk
            exact hres
          · intro r hr
            rw [hres] at hr
            obtain rfl := (Option.some.inj hr).symm
            exact Or.inr ⟨k0, hk0, hbs, hle0, rfl⟩
        · rw [if_neg hdelta] at hres
          refine ⟨⟨_, hres⟩, ?_, ?_, ?_⟩
          · intro e0 he0 hlt0
            have ha : m0 = e0 := by simpa using he0
            subst ha
            linarith
          · intro k hk hk1' hbsk hnoninc
            rw [hbs] at hbsk
            have hkk : k0 = k := Int.natCast_inj.mp hbsk
            subst hkk
            exact absurd (sub_nonpos.mpr hnoninc) hdelta
          · intro r hr
            rw [hres] at hr
            obtain rfl := (Option.some.inj hr).symm
            exact Or.inr ⟨k0, hk0, hbs, hle0, rfl⟩

/-- C10 witness: at `t = 5`, before the fixture's first sample (time 10),
the interpolation returns the first sample verbatim. -/
theorem c10_interpolation_safety_witness :
    findCursorAtTimeInterpolated movesW 5 = some ⟨0, 0, "arrow"⟩ :=
  (c10_interpolation_safety movesW 5 (by decide) (by decide)).2.1
    ⟨0, 0, "arrow", 10⟩ rfl (by decide)

end ScreenStudio
